import Mathlib

/-!
Verification of the unz adaptive-compression archiver.

The Go sources are shallowly embedded: bytes are `Nat` values below 256,
byte slices are `List Nat`, machine integers are `Nat` with an explicit
`% 2^32` wherever the original `uint32` arithmetic can wrap, and fallible
operations return `Option`.  Definitions follow the corresponding Go
functions (`pkg/ans/ans.go`, `pkg/bpe/encoder.go`, `pkg/bpe/vocab.go`,
`pkg/compress/compress.go`); theorems settle the frozen specification
claims about them.
-/

namespace Unz

/-- Little-endian 16-bit read at offset `i` (binary.LittleEndian.Uint16). -/
def readU16LE (l : List Nat) (i : Nat) : Nat :=
  l.getD i 0 + 256 * l.getD (i + 1) 0

/-- Little-endian 32-bit read at offset `i` (binary.LittleEndian.Uint32). -/
def readU32LE (l : List Nat) (i : Nat) : Nat :=
  l.getD i 0 + 256 * l.getD (i + 1) 0 + 65536 * l.getD (i + 2) 0 +
    16777216 * l.getD (i + 3) 0

/-- Little-endian 16-bit write (binary.LittleEndian.PutUint16). -/
def putU16LE (v : Nat) : List Nat := [v % 256, v / 256 % 256]

/-- Little-endian 32-bit write (binary.LittleEndian.PutUint32). -/
def putU32LE (v : Nat) : List Nat :=
  [v % 256, v / 256 % 256, v / 65536 % 256, v / 16777216 % 256]

/-- Wrapping `uint32` subtraction, for `a, b < 2^32`. -/
def sub32 (a b : Nat) : Nat := (a + 4294967296 - b) % 4294967296

namespace ans

/-- Probability precision in bits (ans.ProbBits). -/
def ProbBits : Nat := 14

/-- Probability scale, `1 << ProbBits` (ans.ProbScale). -/
def ProbScale : Nat := 16384

/-- Renormalization floor, `1 << 23` (ans.RansL). -/
def RansL : Nat := 8388608

/-- Encode/decode tables (ans.SymbolTable): per-symbol frequency and
cumulative frequency plus the slot-to-symbol reverse lookup.  The Go
fixed arrays `[256]Symbol` and `[ProbScale]uint16` are modelled as a
256-element list plus total functions. -/
structure SymbolTable where
  freqs : List Nat
  cums : List Nat
  cumToSym : Nat → Nat

/-- `tab.Symbols[s].Freq`. -/
def SymbolTable.freq (t : SymbolTable) (s : Nat) : Nat := t.freqs.getD s 0

/-- `tab.Symbols[s].CumFreq`. -/
def SymbolTable.cum (t : SymbolTable) (s : Nat) : Nat := t.cums.getD s 0

/-- Inner write loop of BuildTable: `for j < n { CumToSym[cum+j] = i }`
expressed as a function update covering the slot interval `[cum, cum+n)`. -/
def writeSlots (f : Nat → Nat) (i cum n : Nat) : Nat → Nat :=
  fun slot => if cum ≤ slot ∧ slot < cum + n then i else f slot

/-- Final loop of BuildTable building the reverse lookup, walking symbols
in ascending order with the running cumulative frequency. -/
def buildLookup : List Nat → Nat → Nat → (Nat → Nat) → Nat → Nat
  | [], _, _, f => f
  | n :: rest, i, cum, f => buildLookup rest (i + 1) (cum + n) (writeSlots f i cum n)

/-- The cumulative-frequency column of the final loop of BuildTable. -/
def buildCums : List Nat → Nat → List Nat
  | [], _ => []
  | n :: rest, cum => cum :: buildCums rest (cum + n)

/-- Index scan `if n > normalized[maxIdx] { maxIdx = i }` of BuildTable,
tracking the running best index and best value. -/
def maxIdxFrom : List Nat → Nat → Nat → Nat → Nat
  | [], _, best, _ => best
  | n :: rest, i, best, bestVal =>
    if bestVal < n then maxIdxFrom rest (i + 1) i n
    else maxIdxFrom rest (i + 1) best bestVal

/-- One normalization step of BuildTable:
`n := uint32(uint64(c) * ProbScale / total); if n == 0 { n = 1 }`,
skipping zero counts. -/
def normalizeCount (total c : Nat) : Nat :=
  if c = 0 then 0
  else if c * ProbScale / total = 0 then 1
  else c * ProbScale / total

/-- Normalize-and-adjust phase of ans.BuildTable: normalize every non-zero
count to `floor(c * ProbScale / total)` clamped to at least 1, then make
the largest entry absorb the difference to `ProbScale` (the shrinking
direction is a `uint32` subtraction). -/
def normAdjust (counts : List Nat) : List Nat :=
  let total := counts.sum
  let normalized := counts.map (normalizeCount total)
  let normTotal := normalized.sum
  if normTotal = ProbScale then normalized
  else
    let maxIdx := maxIdxFrom normalized 0 0 (normalized.getD 0 0)
    if ProbScale < normTotal then
      normalized.set maxIdx (sub32 (normalized.getD maxIdx 0) (normTotal - ProbScale))
    else
      normalized.set maxIdx (normalized.getD maxIdx 0 + (ProbScale - normTotal))

/-- ans.BuildTable: normalize the counts to sum `ProbScale`, adjusting the
largest entry to absorb the rounding error, then build cumulative
frequencies and the reverse lookup.  When the total is zero, symbol 0
carries all probability and the lookup is all zeros. -/
def BuildTable (counts : List Nat) : SymbolTable :=
  let total := counts.sum
  if total = 0 then
    { freqs := ProbScale :: List.replicate 255 0
      cums := List.replicate 256 0
      cumToSym := fun _ => 0 }
  else
    let adjusted := normAdjust counts
    { freqs := adjusted
      cums := buildCums adjusted 0
      cumToSym := buildLookup adjusted 0 0 (fun _ => 0) }

/-- Encoder renormalization loop of Encoder.Encode:
`for state >= maxState { output = append(output, byte(state)); state >>= 8 }`.
Returns the final state and the emitted bytes in emission order.  The Go
loop does not terminate for `maxState = 0`; that case is unreachable
(guarded by `freq == 0`) and here returns immediately. -/
def encRenorm (m : Nat) (st : Nat) : Nat × List Nat :=
  if h : 0 < m ∧ m ≤ st then
    let r := encRenorm m (st / 256)
    (r.1, st % 256 :: r.2)
  else (st, [])
termination_by st
decreasing_by
  exact Nat.div_lt_self (Nat.lt_of_lt_of_le h.1 h.2) (by omega)

/-- Encoder.Encode for one symbol: renormalize against
`maxState = ((RansL >> ProbBits) << 8) * freq`, then
`state = ((state / freq) << ProbBits) + cum + state % freq`.
Symbols with zero frequency are skipped, as in the source. -/
def encodeSym (tab : SymbolTable) (sym st : Nat) : Nat × List Nat :=
  let freq := tab.freq sym
  if freq = 0 then (st, [])
  else
    let r := encRenorm (((RansL >>> ProbBits) <<< 8) * freq) st
    (((r.1 / freq) <<< ProbBits) + tab.cum sym + r.1 % freq, r.2)

/-- The sequence of Encoder.Encode calls made by ans.Compress, processing
the given symbol list in order (the caller passes the data reversed) and
accumulating the output buffer. -/
def encLoop (tab : SymbolTable) : List Nat → Nat → List Nat → Nat × List Nat
  | [], st, out => (st, out)
  | s :: rest, st, out =>
    let e := encodeSym tab s st
    encLoop tab rest e.1 (out ++ e.2)

/-- Decoder renormalization loop of Decoder.Decode:
`for state < RansL && pos < len(data) { state = state<<8 | data[pos]; pos++ }`.
For byte streams the shift-or is `st * 256 + b`. -/
def decRenorm : Nat → List Nat → Nat × List Nat
  | st, [] => (st, [])
  | st, b :: rest =>
    if st < RansL then decRenorm (st * 256 + b) rest else (st, b :: rest)

/-- Decoder.Decode for one symbol: slot lookup, the state update
`state = freq*(state>>ProbBits) + slot - cum` (a `uint32` subtraction,
written with its wrap-around), then renormalization. -/
def decodeSym (tab : SymbolTable) (st : Nat) (stream : List Nat) :
    Nat × Nat × List Nat :=
  let slot := st % ProbScale
  let sym := tab.cumToSym slot
  let st1 := (tab.freq sym * (st >>> ProbBits) + slot + (4294967296 - tab.cum sym)) %
    4294967296
  let r := decRenorm st1 stream
  (sym, r.1, r.2)

/-- The decode loop of ans.Decompress: decode exactly `n` symbols. -/
def decLoop (tab : SymbolTable) : Nat → Nat → List Nat → List Nat × Nat × List Nat
  | 0, st, stream => ([], st, stream)
  | n + 1, st, stream =>
    let d := decodeSym tab st stream
    let r := decLoop tab n d.2.1 d.2.2
    (d.1 :: r.1, r.2)

/-- Frequency-table serialization of ans.Compress:
`for i < 256 { PutUint16(uint16(tab.Symbols[i].Freq)) }`. -/
def serFreqs (tab : SymbolTable) : List Nat :=
  ((List.range 256).map (fun i => putU16LE (tab.freq i % 65536))).join

/-- Byte histogram of ans.Compress: `for _, b := range data { counts[b]++ }`.
The `uint32` counters can wrap only for more than `2^32` occurrences of a
byte; the theorems below that depend on exact counts restrict the input
length below `2^32`. -/
def countFreqs (data : List Nat) : List Nat :=
  data.foldl (fun cnts b => cnts.set b (cnts.getD b 0 + 1)) (List.replicate 256 0)

/-- ans.Compress: empty data yields the four-zero-byte sentinel; otherwise
`[len:4][freqs:256*u16][state:4][bytes in decode order]`, where the byte
buffer accumulated by the encoder is reversed by Encoder.Finish. -/
def Compress (data : List Nat) : List Nat :=
  if data.length = 0 then [0, 0, 0, 0]
  else
    let counts := countFreqs data
    let tab := BuildTable counts
    let r := encLoop tab data.reverse RansL []
    putU32LE data.length ++ serFreqs tab ++ (putU32LE r.1 ++ r.2.reverse)

/-- ans.Decompress: parse the original length, rebuild the table from the
serialized frequencies, read the 32-bit initial state (NewDecoder, which
also rejects fewer than four remaining bytes), and decode `origLen`
symbols.  Errors are `none`. -/
def Decompress (data : List Nat) : Option (List Nat) :=
  if data.length < 4 then none
  else
    let origLen := readU32LE data 0
    if origLen = 0 then some []
    else if data.length < 4 + 256 * 2 + 4 then none
    else
      let counts := (List.range 256).map (fun i => readU16LE data (4 + i * 2))
      let tab := BuildTable counts
      let rest := data.drop 516
      if rest.length < 4 then none
      else
        let st := readU32LE rest 0
        let stream := rest.drop 4
        let r := decLoop tab origLen st stream
        some r.1

end ans

namespace bpe

/-- bpe.FastTrie: one node per byte with a 256-slot child array (modelled
as a function), a token id and a token flag.  The Go sentinel
`tokenID = -1` is represented by `isToken = false`, the only way the
source ever reads it. -/
inductive FastTrie where
  | node (children : Nat → Option FastTrie) (tokenID : Nat) (isToken : Bool)

/-- NewFastTrie's fresh node. -/
def FastTrie.empty : FastTrie := .node (fun _ => none) 0 false

/-- FastTrie.Insert: walk the token's bytes, creating missing children,
and mark the terminal node with the id. -/
def FastTrie.insert : FastTrie → List Nat → Nat → FastTrie
  | .node ch _ _, [], id => .node ch id true
  | .node ch tid tok, b :: rest, id =>
      let child := (ch b).getD FastTrie.empty
      .node (fun b2 => if b2 = b then some (child.insert rest id) else ch b2)
        tid tok

/-- Loop of FastTrie.LongestMatch: walk the trie byte by byte, remembering
the last token endpoint as `(bestLen, bestID)`. -/
def FastTrie.lmAux : List Nat → FastTrie → Nat → Nat → Nat → Nat × Nat
  | [], _, _, bl, bi => (bl, bi)
  | b :: rest, .node ch _ _, i, bl, bi =>
      match ch b with
      | none => (bl, bi)
      | some child =>
          match child with
          | .node ch2 ctid ctok =>
              if ctok then FastTrie.lmAux rest (.node ch2 ctid ctok) (i + 1)
                (i + 1) ctid
              else FastTrie.lmAux rest (.node ch2 ctid ctok) (i + 1) bl bi

/-- FastTrie.LongestMatch: longest token matching a prefix of `text`.
The Go no-match result `(0, -1)` is modelled as `(0, 0)`; callers only
test the length against zero before using the id. -/
def FastTrie.longestMatch (t : FastTrie) (text : List Nat) : Nat × Nat :=
  FastTrie.lmAux text t 0 0 0

/-- A vocabulary in id order: token id `i` holds byte string `v[i]`
(bpe.Vocabulary.tokens). -/
abbrev Vocab := List (List Nat)

/-- Vocabulary.GetID via the byte-string-to-id map; ids were assigned in
list order, so the map lookup is the index of the token. -/
def getIDAux : List (List Nat) → List Nat → Nat → Option Nat
  | [], _, _ => none
  | t :: rest, w, i => if t = w then some i else getIDAux rest w (i + 1)

/-- Vocabulary.GetID. -/
def getID (v : Vocab) (w : List Nat) : Option Nat := getIDAux v w 0

/-- Vocabulary.Decode: concatenate the bytes of every id inside the
vocabulary, skipping out-of-range ids. -/
def decode (v : Vocab) (ids : List Nat) : List Nat :=
  ids.foldl (fun acc id => if id < v.length then acc ++ v.getD id [] else acc) []

/-- NewEncoder: insert every (token, id) pair of the vocabulary into a
fresh trie. -/
def buildTrie (v : Vocab) : FastTrie :=
  v.enum.foldl (fun t p => t.insert p.2 p.1) FastTrie.empty

/-- Encoder model: the vocabulary plus its trie (bpe.Encoder). -/
structure Encoder where
  vocab : Vocab
  trie : FastTrie

/-- bpe.NewEncoder. -/
def mkEncoder (v : Vocab) : Encoder := ⟨v, buildTrie v⟩

/-- Encoder.Encode: greedy longest match; on a zero-length match fall
back to the single-byte token (or the raw byte value), advancing one
byte. -/
def encode (e : Encoder) : List Nat → List Nat
  | [] => []
  | b :: rest =>
      let m := e.trie.longestMatch (b :: rest)
      if m.1 = 0 then
        (match getID e.vocab [b] with
         | some id => id
         | none => b) :: encode e rest
      else m.2 :: encode e ((b :: rest).drop m.1)
termination_by text => text.length
decreasing_by
  · simp
  · rename_i hm
    have : (b :: rest).length - m.1 < (b :: rest).length := by
      simp only [List.length_cons]
      omega
    simpa using this

/-- Specification predicate: every token endpoint reachable from this
node along path `p` (relative to the node's prefix `pre`) stores an id
whose vocabulary entry is exactly `pre ++ p`. -/
inductive TrieOK (v : Vocab) : FastTrie → List Nat → Prop where
  | mk : ∀ (ch : Nat → Option FastTrie) (tid : Nat) (tok : Bool) (pre : List Nat),
      (tok = true → tid < v.length ∧ v.getD tid [] = pre) →
      (∀ b t2, ch b = some t2 → TrieOK v t2 (pre ++ [b])) →
      TrieOK v (.node ch tid tok) pre

/-- Specification predicate: the trie contains `w` as a token path whose
terminal node is marked. -/
def HasTok : FastTrie → List Nat → Prop
  | .node _ _ tok, [] => tok = true
  | .node ch _ _, b :: rest => ∃ t2, ch b = some t2 ∧ HasTok t2 rest

end bpe

namespace compress

/-- Method codes (compress.Method). -/
def MethodStore : Nat := 0

/-- Method 8: standard DEFLATE. -/
def MethodDEFLATE : Nat := 8

/-- Method 85: BPE + rANS. -/
def MethodUNZLATE : Nat := 85

/-- Method 86: BPE + DEFLATE. -/
def MethodBPELATE : Nat := 86

/-- ZIP local-file-header signature. -/
def sigLocalFile : Nat := 0x04034b50

/-- ZIP central-directory signature. -/
def sigCentralDir : Nat := 0x02014b50

/-- ZIP end-of-central-directory signature. -/
def sigEndCentralD : Nat := 0x06054b50

/-- Version needed to extract (2.0). -/
def zipVersion : Nat := 20

/-- Version made by: Unix, 2.0. -/
def zipVersionUnix : Nat := 0x0314

/-- Bit 11 of the general-purpose flags: UTF-8 file name. -/
def flagUTF8 : Nat := 0x0800

/-- Extra field id 0x5455: extended timestamp. -/
def extraExtendedTS : Nat := 0x5455

/-- Extra field id 0x554E: vocabulary info. -/
def extraVocabInfo : Nat := 0x554E

/-- NatLangEnglish code. -/
def NatLangEnglish : Nat := 1

/-- ProgLangGo code. -/
def ProgLangGo : Nat := 1

/-- ProgLangPython code. -/
def ProgLangPython : Nat := 2

/-- ProgLangJavaScript code. -/
def ProgLangJavaScript : Nat := 3

/-- Legacy one-byte language id for Go. -/
def LangIDGo : Nat := 1

/-- Legacy one-byte language id for Python. -/
def LangIDPy : Nat := 2

/-- Legacy one-byte language id for JavaScript. -/
def LangIDJS : Nat := 3

/-- time.Time model: the zero flag, the Unix seconds, and the DOS
time/date words of the calendar decomposition.  timeToDOS only reads
that decomposition, which the Go value carries semantically; no claim
depends on the calendar arithmetic itself. -/
structure Time where
  isZero : Bool
  unix : Nat
  dosTime : Nat
  dosDate : Nat

/-- The zero time.Time. -/
def Time.zero : Time := ⟨true, 0, 0, 0⟩

/-- timeToDOS: the zero time maps to (0, 0). -/
def timeToDOS (t : Time) : Nat × Nat :=
  if t.isZero then (0, 0) else (t.dosTime % 65536, t.dosDate % 65536)

/-- compress.VocabInfo: the four language/format bytes. -/
structure VocabInfo where
  natLang : Nat
  progLang : Nat
  dataFmt : Nat
  markup : Nat
deriving DecidableEq

/-- The zero VocabInfo. -/
def VocabInfo.empty : VocabInfo := ⟨0, 0, 0, 0⟩

/-- makeVocabInfo: the eight-byte extra field, the 2-byte id 0x554E
little-endian (bytes 78, 85), a 2-byte size 4, then the four bytes
natural-language, programming-language, data-format, markup. -/
def makeVocabInfo (info : VocabInfo) : List Nat :=
  [78, 85, 4, 0,
    info.natLang % 256, info.progLang % 256, info.dataFmt % 256,
    info.markup % 256]

/-- makeExtendedTimestamp: extra field 0x5455 little-endian (bytes 85,
84), size 5, flags bit 0 set, and the 32-bit mtime; empty for the zero
time.  The local and central variants carry the same five-byte
payload. -/
def makeExtendedTimestamp (t : Time) (_lcl : Bool) : List Nat :=
  if t.isZero then []
  else [85, 84, 5, 0, 1,
    t.unix % 256, t.unix / 256 % 256, t.unix / 65536 % 256,
    t.unix / 16777216 % 256]

/-- hasNonASCII: some byte of the name is above 127. -/
def hasNonASCII (s : List Nat) : Bool := s.any (fun b => decide (127 < b))

/-- The general-purpose flags word every writer computes: zero, with
bit 11 set when hasNonASCII holds. -/
def zipFlags (name : List Nat) : Nat :=
  if hasNonASCII name then flagUTF8 else 0

/-- os.FileMode model: the permission bits and the directory/symlink
type flags the archiver inspects. -/
structure FileMode where
  perm : Nat
  isDir : Bool
  isSymlink : Bool
deriving DecidableEq

/-- goModeToUnix: permission bits plus the Unix file-type bits. -/
def goModeToUnix (m : FileMode) : Nat :=
  (m.perm % 512) |||
    (if m.isSymlink then 0o120000 else if m.isDir then 0o40000 else 0o100000)

/-- unixModeToGo: permission bits plus the symlink/directory flags. -/
def unixModeToGo (unixMode : Nat) : FileMode :=
  ⟨unixMode % 512,
    unixMode &&& 0o170000 = 0o40000,
    unixMode &&& 0o170000 = 0o120000⟩

/-- writeLocalHeader: the 30-byte local file header array (each field in
little-endian byte order at its offset; the signature 0x04034b50 and the
version 20 appear as their literal bytes), then the name and the extra
field. -/
def writeLocalHeader (name : List Nat) (method flags dosTime dosDate crc
    compSize uncompSize : Nat) (extra : List Nat) : List Nat :=
  [80, 75, 3, 4,
    20, 0,
    flags % 256, flags / 256 % 256,
    method % 256, method / 256 % 256,
    dosTime % 256, dosTime / 256 % 256,
    dosDate % 256, dosDate / 256 % 256,
    crc % 256, crc / 256 % 256, crc / 65536 % 256, crc / 16777216 % 256,
    compSize % 256, compSize / 256 % 256, compSize / 65536 % 256,
    compSize / 16777216 % 256,
    uncompSize % 256, uncompSize / 256 % 256, uncompSize / 65536 % 256,
    uncompSize / 16777216 % 256,
    name.length % 256, name.length / 256 % 256,
    extra.length % 256, extra.length / 256 % 256] ++ name ++ extra

/-- writeCentralDir: the 46-byte central-directory entry array (each
field in little-endian byte order at its offset; the signature
0x02014b50, the Unix version-made-by 0x0314 and the version 20 appear as
their literal bytes), then the name and the extra field. -/
def writeCentralDir (name : List Nat) (method flags dosTime dosDate crc
    compSize uncompSize localOffset externalAttrs : Nat)
    (extra : List Nat) : List Nat :=
  [80, 75, 1, 2,
    20, 3,
    20, 0,
    flags % 256, flags / 256 % 256,
    method % 256, method / 256 % 256,
    dosTime % 256, dosTime / 256 % 256,
    dosDate % 256, dosDate / 256 % 256,
    crc % 256, crc / 256 % 256, crc / 65536 % 256, crc / 16777216 % 256,
    compSize % 256, compSize / 256 % 256, compSize / 65536 % 256,
    compSize / 16777216 % 256,
    uncompSize % 256, uncompSize / 256 % 256, uncompSize / 65536 % 256,
    uncompSize / 16777216 % 256,
    name.length % 256, name.length / 256 % 256,
    extra.length % 256, extra.length / 256 % 256,
    0, 0, 0, 0, 0, 0,
    externalAttrs % 256, externalAttrs / 256 % 256,
    externalAttrs / 65536 % 256, externalAttrs / 16777216 % 256,
    localOffset % 256, localOffset / 256 % 256, localOffset / 65536 % 256,
    localOffset / 16777216 % 256] ++ name ++ extra

/-- writeEndCentralDir: the 22-byte end-of-central-directory array (the
signature 0x06054b50 as its literal bytes). -/
def writeEndCentralDir (numEntries centralDirSize centralDirOffset : Nat) :
    List Nat :=
  [80, 75, 5, 6,
    0, 0, 0, 0,
    numEntries % 256, numEntries / 256 % 256,
    numEntries % 256, numEntries / 256 % 256,
    centralDirSize % 256, centralDirSize / 256 % 256,
    centralDirSize / 65536 % 256, centralDirSize / 16777216 % 256,
    centralDirOffset % 256, centralDirOffset / 256 % 256,
    centralDirOffset / 65536 % 256, centralDirOffset / 16777216 % 256,
    0, 0]

/-- Modelled from the spec: one shift-xor round of CRC-32/IEEE as
computed by hash/crc32 (reflected, polynomial 0xEDB88320); the Go
standard library is outside this repository. -/
def crc32Round (c : Nat) : Nat :=
  if c % 2 = 1 then 0xEDB88320 ^^^ (c / 2) else c / 2

/-- Modelled from the spec: eight CRC-32 rounds over one byte. -/
def crc32Byte (c b : Nat) : Nat :=
  crc32Round (crc32Round (crc32Round (crc32Round (crc32Round (crc32Round
    (crc32Round (crc32Round (c ^^^ b))))))))

/-- Modelled from the spec: crc32.ChecksumIEEE. -/
def crc32 (data : List Nat) : Nat :=
  (data.foldl crc32Byte 0xFFFFFFFF) ^^^ 0xFFFFFFFF

/-- encodeVarints inner loop: the 7-bit little-endian digits of one
value (buf[pos] = byte(v) | 0x80 while v ≥ 0x80).  The fuel bounds the
iteration count; fuel = v always suffices since v shrinks by a factor
of 128 every step. -/
def varintBytes : Nat → Nat → List Nat
  | 0, v => [v % 256]
  | fuel + 1, v =>
      if v < 128 then [v % 256]
      else ((v % 256) ||| 128) :: varintBytes fuel (v >>> 7)

/-- encodeVarints. -/
def encodeVarints (values : List Nat) : List Nat :=
  values.foldr (fun v acc => varintBytes v v ++ acc) []

/-- decodeVarints inner loop: one value and the remaining bytes
(v |= (b & 0x7F) << shift, stop at a byte below 0x80). -/
def readVarint : List Nat → Nat → Nat → Nat × List Nat
  | [], v, _ => (v, [])
  | b :: rest, v, shift =>
      if b % 256 < 128 then (v ||| ((b % 128) <<< shift), rest)
      else readVarint rest (v ||| ((b % 128) <<< shift)) (shift + 7)

/-- decodeVarints outer loop on a fuel bounding the value count; every
value consumes at least one byte, so fuel = data.length is exact. -/
def decodeVarintsAux : Nat → List Nat → List Nat
  | 0, _ => []
  | _ + 1, [] => []
  | fuel + 1, b :: rest =>
      (readVarint (b :: rest) 0 0).1 ::
        decodeVarintsAux fuel (readVarint (b :: rest) 0 0).2

/-- decodeVarints. -/
def decodeVarints (data : List Nat) : List Nat :=
  decodeVarintsAux data.length data

/-- Modelled from the spec: the Compressor carries the default (text)
vocabulary and the per-language vocabularies the vocab package builds at
start-up (that package is absent from src/), plus the DEFLATE codec of
the Go standard library as abstract functions. -/
structure Compressor where
  vocab : bpe.Vocab
  goVocab : bpe.Vocab
  pyVocab : bpe.Vocab
  jsVocab : bpe.Vocab
  deflate : List Nat → List Nat
  inflate : List Nat → Option (List Nat)

/-- compressUNZLATEWith: BPE-encode with the given vocabulary,
varint-pack, rANS-compress; an empty token list passes the data
through. -/
def compressUNZLATEWith (encVocab : bpe.Vocab) (data : List Nat) :
    List Nat :=
  let tokens := bpe.encode (bpe.mkEncoder encVocab) data
  if tokens.length = 0 then data
  else ans.Compress (encodeVarints tokens)

/-- compressUNZLATE: the default encoder. -/
def compressUNZLATE (c : Compressor) (data : List Nat) : List Nat :=
  compressUNZLATEWith c.vocab data

/-- decompressUNZLATE: rANS-decompress, varint-unpack, then decode with
the default encoder (c.encoder.Decode), whichever encoder compressed. -/
def decompressUNZLATE (c : Compressor) (data : List Nat) :
    Option (List Nat) :=
  (ans.Decompress data).map (fun tb => bpe.decode c.vocab (decodeVarints tb))

/-- getEncoderForProgLang: the vocabulary the language code selects. -/
def getVocabForProgLang (c : Compressor) (lang : Nat) : bpe.Vocab :=
  if lang = ProgLangGo then c.goVocab
  else if lang = ProgLangPython then c.pyVocab
  else if lang = ProgLangJavaScript then c.jsVocab
  else c.vocab

/-- decompressBPELATEWithVocab: inflate, then decode with the encoder
the vocabulary info selects; empty token bytes pass through. -/
def decompressBPELATEWithVocab (c : Compressor) (data : List Nat)
    (vocab : VocabInfo) : Option (List Nat) :=
  (c.inflate data).map (fun tokenBytes =>
    if tokenBytes.length = 0 then tokenBytes
    else bpe.decode (getVocabForProgLang c vocab.progLang)
      (decodeVarints tokenBytes))

/-- compressBPELATEWith: BPE-encode then DEFLATE; an empty token list
deflates the raw data. -/
def compressBPELATEWith (c : Compressor) (encVocab : bpe.Vocab)
    (data : List Nat) : List Nat :=
  let tokens := bpe.encode (bpe.mkEncoder encVocab) data
  if tokens.length = 0 then c.deflate data
  else c.deflate (encodeVarints tokens)

/-- compressBPELATE: the default encoder. -/
def compressBPELATE (c : Compressor) (data : List Nat) : List Nat :=
  compressBPELATEWith c c.vocab data

/-- The walk of parseExtendedTimestamp; the fuel dominates the iteration
count (every step drops at least four bytes). -/
def parseExtTSAux : Nat → List Nat → Option Nat
  | 0, _ => none
  | fuel + 1, extra =>
      if extra.length < 4 then none
      else if extra.length < 4 + readU16LE extra 2 then none
      else if readU16LE extra 0 = extraExtendedTS ∧ 5 ≤ readU16LE extra 2 ∧
          extra.getD 4 0 % 2 = 1 then
        some (readU32LE extra 5)
      else parseExtTSAux fuel (extra.drop (4 + readU16LE extra 2))

/-- parseExtendedTimestamp: the Unix mtime of extra field 0x5455. -/
def parseExtendedTimestamp (extra : List Nat) : Option Nat :=
  parseExtTSAux extra.length extra

/-- Legacy one-byte vocabulary info. -/
def legacyVocabInfo (legacyID : Nat) : VocabInfo :=
  ⟨NatLangEnglish,
    if legacyID = LangIDGo then ProgLangGo
    else if legacyID = LangIDPy then ProgLangPython
    else if legacyID = LangIDJS then ProgLangJavaScript
    else 0, 0, 0⟩

/-- The walk of parseVocabInfo; the fuel dominates the iteration count
(every step drops at least four bytes). -/
def parseVocabInfoAux : Nat → List Nat → Option VocabInfo
  | 0, _ => none
  | fuel + 1, extra =>
      if extra.length < 4 then none
      else if extra.length < 4 + readU16LE extra 2 then none
      else if readU16LE extra 0 = extraVocabInfo ∧ 4 ≤ readU16LE extra 2 then
        some ⟨extra.getD 4 0, extra.getD 5 0, extra.getD 6 0, extra.getD 7 0⟩
      else if readU16LE extra 0 = extraVocabInfo ∧ 1 ≤ readU16LE extra 2 then
        some (legacyVocabInfo (extra.getD 4 0))
      else parseVocabInfoAux fuel (extra.drop (4 + readU16LE extra 2))

/-- parseVocabInfo: the vocabulary info of extra field 0x554E. -/
def parseVocabInfo (extra : List Nat) : Option VocabInfo :=
  parseVocabInfoAux extra.length extra

/-- The backwards scan for the end-of-central-directory signature
(i from len - 22 down while i ≥ 0 and i > len - 65557). -/
def findEOCD (data : List Nat) : Option Nat :=
  ((List.range (data.length - 21)).reverse).find? (fun i =>
    decide (data.length < i + 65557) &&
      decide (readU32LE data i = sigEndCentralD))

/-- findCentralDirectory: the central-directory offset stored at the
EOCD (the record always has its 20 bytes there since i ≤ len - 22). -/
def findCentralDirectory (data : List Nat) : Option Nat :=
  (findEOCD data).map (fun i => readU32LE data (i + 16))

/-- parseUnixMode: the Unix mode of a central-directory entry made by
Unix. -/
def parseUnixMode (cd : List Nat) : Option FileMode :=
  if cd.length < 46 then none
  else if readU32LE cd 0 ≠ sigCentralDir then none
  else if (readU16LE cd 4) >>> 8 ≠ 3 then none
  else if (readU32LE cd 38) >>> 16 = 0 then none
  else some (unixModeToGo ((readU32LE cd 38) >>> 16))

/-- compress.FileInfo.  ModTime keeps the 0x5455 mtime when present (the
DOS-calendar fallback is not modelled: no claim reads it); Mode keeps
the central-directory Unix mode when present. -/
structure FileInfo where
  name : List Nat
  size : Nat
  compSize : Nat
  method : Nat
  crc : Nat
  mtime : Option Nat
  mode : Option FileMode
  offset : Nat
  vocab : VocabInfo
deriving DecidableEq

/-- GetFileInfo: parse the first local file header. -/
def GetFileInfo (data : List Nat) : Option FileInfo :=
  if data.length < 30 then none
  else if readU32LE data 0 ≠ sigLocalFile then none
  else if data.length < 30 + readU16LE data 26 + readU16LE data 28 then none
  else
    let extra := (data.drop (30 + readU16LE data 26)).take (readU16LE data 28)
    some ⟨(data.drop 30).take (readU16LE data 26), readU32LE data 22,
      readU32LE data 18, readU16LE data 8, readU32LE data 14,
      parseExtendedTimestamp extra,
      (findCentralDirectory data).bind
        (fun off => parseUnixMode (data.drop off)),
      0, (parseVocabInfo extra).getD VocabInfo.empty⟩

/-- Compressor.Decompress: parse the first local header, slice the file
data, and dispatch on the method; no CRC verification happens
anywhere. -/
def Decompress (c : Compressor) (data : List Nat) : Option (List Nat) :=
  (GetFileInfo data).bind (fun info =>
    if data.length < 30 + readU16LE data 26 + readU16LE data 28 +
        info.compSize then none
    else
      let compressed := (data.drop (30 + readU16LE data 26 +
        readU16LE data 28)).take info.compSize
      if info.method = MethodUNZLATE then decompressUNZLATE c compressed
      else if info.method = MethodBPELATE then
        decompressBPELATEWithVocab c compressed info.vocab
      else if info.method = MethodDEFLATE then c.inflate compressed
      else if info.method = MethodStore then some compressed
      else none)

/-- The extra fields of one entry as createZIPWithCompressedAndLang and
Archive.Bytes assemble them: the extended timestamp, plus the vocabulary
info exactly when the method is Bpelate (86). -/
def entryExtra (t : Time) (lcl : Bool) (method : Nat) (vi : VocabInfo) :
    List Nat :=
  makeExtendedTimestamp t lcl ++
    (if method = MethodBPELATE then makeVocabInfo vi else [])

/-- createZIPWithCompressedAndLang: assemble a one-entry archive from
pre-compressed data. -/
def createZIPWithCompressedAndLang (originalData compressed name : List Nat)
    (t : Time) (mode : FileMode) (method : Nat) (vocabInfo : VocabInfo) :
    Option (List Nat) :=
  if 4294967295 < originalData.length ∨ 4294967295 < compressed.length then
    none
  else
    let lh := writeLocalHeader name method (zipFlags name) (timeToDOS t).1
      (timeToDOS t).2 (crc32 originalData) compressed.length
      originalData.length (entryExtra t true method vocabInfo)
    let cd := writeCentralDir name method (zipFlags name) (timeToDOS t).1
      (timeToDOS t).2 (crc32 originalData) compressed.length
      originalData.length 0 (goModeToUnix mode <<< 16)
      (entryExtra t false method vocabInfo)
    some (lh ++ compressed ++ cd ++
      writeEndCentralDir 1 cd.length (lh ++ compressed).length)

/-- createZIPWithCompressed: no language info. -/
def createZIPWithCompressed (originalData compressed name : List Nat)
    (t : Time) (mode : FileMode) (method : Nat) : Option (List Nat) :=
  createZIPWithCompressedAndLang originalData compressed name t mode method
    VocabInfo.empty

/-- createZIP: compress with the requested method, then assemble the
one-entry archive; the extra fields hold only the extended timestamp. -/
def createZIP (c : Compressor) (data name : List Nat) (t : Time)
    (mode : FileMode) (method : Nat) : Option (List Nat) :=
  if 4294967295 < data.length then none
  else
    (if method = MethodUNZLATE then some (compressUNZLATE c data)
     else if method = MethodBPELATE then some (compressBPELATE c data)
     else if method = MethodDEFLATE then some (c.deflate data)
     else if method = MethodStore then some data
     else none).bind (fun compressed =>
      if 4294967295 < compressed.length then none
      else
        let lh := writeLocalHeader name method (zipFlags name)
          (timeToDOS t).1 (timeToDOS t).2 (crc32 data) compressed.length
          data.length (makeExtendedTimestamp t true)
        let cd := writeCentralDir name method (zipFlags name)
          (timeToDOS t).1 (timeToDOS t).2 (crc32 data) compressed.length
          data.length 0 (goModeToUnix mode <<< 16)
          (makeExtendedTimestamp t false)
        some (lh ++ compressed ++ cd ++
          writeEndCentralDir 1 cd.length (lh ++ compressed).length))

/-- The byte image of createZIP on Store with the CRC word an explicit
parameter: at crcVal = crc32 data this is exactly the Store archive
createZIP emits. -/
def storeArchiveWithCRC (name data : List Nat) (t : Time) (mode : FileMode)
    (crcVal : Nat) : List Nat :=
  writeLocalHeader name MethodStore (zipFlags name) (timeToDOS t).1
      (timeToDOS t).2 crcVal data.length data.length
      (makeExtendedTimestamp t true) ++ data ++
    writeCentralDir name MethodStore (zipFlags name) (timeToDOS t).1
      (timeToDOS t).2 crcVal data.length data.length 0
      (goModeToUnix mode <<< 16) (makeExtendedTimestamp t false) ++
    writeEndCentralDir 1
      (writeCentralDir name MethodStore (zipFlags name) (timeToDOS t).1
        (timeToDOS t).2 crcVal data.length data.length 0
        (goModeToUnix mode <<< 16) (makeExtendedTimestamp t false)).length
      (writeLocalHeader name MethodStore (zipFlags name) (timeToDOS t).1
          (timeToDOS t).2 crcVal data.length data.length
          (makeExtendedTimestamp t true) ++ data).length

/-- compress.archiveEntry: what Archive.Add stores per entry. -/
structure ArchiveEntry where
  name : List Nat
  data : List Nat
  compressed : List Nat
  method : Nat
  crc : Nat
  modTime : Time
  mode : FileMode
  vocabInfo : VocabInfo

/-- The loop of Archive.Bytes: local headers and data into buf, the
central-directory entries into cd. -/
def archiveLoop : List ArchiveEntry → List Nat → List Nat →
    List Nat × List Nat
  | [], buf, cd => (buf, cd)
  | e :: rest, buf, cd =>
      archiveLoop rest
        (buf ++ writeLocalHeader e.name e.method (zipFlags e.name)
          (timeToDOS e.modTime).1 (timeToDOS e.modTime).2 e.crc
          e.compressed.length e.data.length
          (entryExtra e.modTime true e.method e.vocabInfo) ++ e.compressed)
        (cd ++ writeCentralDir e.name e.method (zipFlags e.name)
          (timeToDOS e.modTime).1 (timeToDOS e.modTime).2 e.crc
          e.compressed.length e.data.length buf.length
          (goModeToUnix e.mode <<< 16)
          (entryExtra e.modTime false e.method e.vocabInfo))

/-- Archive.Bytes: the entry blocks, the central directory, then the
end-of-central-directory record. -/
def archiveBytes (entries : List ArchiveEntry) : List Nat :=
  (archiveLoop entries [] []).1 ++ (archiveLoop entries [] []).2 ++
    writeEndCentralDir entries.length (archiveLoop entries [] []).2.length
      (archiveLoop entries [] []).1.length

/-- IsValidFormat: at least 30 bytes and the local-file signature. -/
def IsValidFormat (data : List Nat) : Bool :=
  if data.length < 30 then false
  else decide (readU32LE data 0 = sigLocalFile)

/-- Modelled from the spec: a minimal stand-in for the text vocabulary,
the 256 single-byte tokens (the vocab package is absent from src/; its
tests require every vocabulary to contain all of them). -/
def vTextDemo : bpe.Vocab := (List.range 256).map (fun b => [b])

/-- Modelled from the spec: a minimal stand-in for the Go vocabulary,
the text tokens plus one merged token "go" (the vocab tests require the
language vocabularies to strictly extend the single-byte set). -/
def vGoDemo : bpe.Vocab := vTextDemo ++ [[103, 111]]

/-- A Compressor over the demo vocabularies; the DEFLATE codec is
irrelevant to the rANS-based paths. -/
def demoCompressor : Compressor :=
  ⟨vTextDemo, vGoDemo, vTextDemo, vTextDemo, fun d => d, fun d => some d⟩

end compress

namespace ans

theorem sub32_eq {a b : Nat} (hba : b ≤ a) (ha : a < 4294967296) :
    sub32 a b = a - b := by
  unfold sub32; omega

theorem div_add_div_le (a b c : Nat) : a / c + b / c ≤ (a + b) / c := by
  rcases Nat.eq_zero_or_pos c with hc | hc
  · subst hc; simp
  · rw [Nat.le_div_iff_mul_le hc, Nat.add_mul]
    exact Nat.add_le_add (Nat.div_mul_le_self a c) (Nat.div_mul_le_self b c)

theorem sum_map_div_le (l : List Nat) (c : Nat) :
    (l.map (· / c)).sum ≤ l.sum / c := by
  induction l with
  | nil => simp
  | cons a t ih =>
      simp only [List.map_cons, List.sum_cons]
      exact le_trans (Nat.add_le_add_left ih _) (div_add_div_le a t.sum c)

theorem sum_map_mul_const (l : List Nat) (s : Nat) :
    (l.map (· * s)).sum = l.sum * s := by
  induction l with
  | nil => simp
  | cons a t ih => simp [ih, Nat.add_mul]

theorem filter_sum_add_filter_sum_le (l : List Nat) (p q : Nat → Bool)
    (hpq : ∀ c, p c = true → q c = false) :
    (l.filter p).sum + (l.filter q).sum ≤ l.sum := by
  induction l with
  | nil => simp
  | cons a t ih =>
      rcases hp : p a with hpf | hpt
      · rcases hq : q a with hqf | hqt
        · simp [List.filter_cons, hp, hq]; omega
        · simp [List.filter_cons, hp, hq]; omega
      · have hq := hpq a hp
        simp [List.filter_cons, hp, hq]; omega

theorem filter_length_add_filter_length_le (l : List Nat) (p q : Nat → Bool)
    (hpq : ∀ c, p c = true → q c = false) :
    (l.filter p).length + (l.filter q).length ≤ l.length := by
  induction l with
  | nil => simp
  | cons a t ih =>
      rcases hp : p a with hpf | hpt
      · rcases hq : q a with hqf | hqt
        · simp [List.filter_cons, hp, hq]; omega
        · simp [List.filter_cons, hp, hq]; omega
      · have hq := hpq a hp
        simp [List.filter_cons, hp, hq]; omega

theorem length_le_sum_of_pos (l : List Nat) (h : ∀ x ∈ l, 1 ≤ x) :
    l.length ≤ l.sum := by
  induction l with
  | nil => simp
  | cons a t ih =>
      have ha := h a (by simp)
      have ht := ih fun x hx => h x (by simp [hx])
      simp only [List.length_cons, List.sum_cons]; omega

theorem le_foldr_max (l : List Nat) (x : Nat) (hx : x ∈ l) : x ≤ l.foldr max 0 := by
  induction l with
  | nil => cases hx
  | cons a t ih =>
      rcases List.mem_cons.1 hx with h | h
      · subst h; simp [List.foldr]
      · have := ih h; simp [List.foldr]; omega

theorem maxIdxFrom_lt (l : List Nat) : ∀ (i best bv B : Nat), best < B →
    i + l.length ≤ B → maxIdxFrom l i best bv < B := by
  induction l with
  | nil => intro i best bv B h1 _; simpa [maxIdxFrom] using h1
  | cons n t ih =>
      intro i best bv B h1 h2
      simp only [List.length_cons] at h2
      simp only [maxIdxFrom]
      split
      · exact ih (i + 1) i n B (by omega) (by omega)
      · exact ih (i + 1) best bv B h1 (by omega)

theorem getD_maxIdxFrom (full : List Nat) : ∀ (l : List Nat) (i best bv : Nat),
    full.drop i = l → full.getD best 0 = bv →
    full.getD (maxIdxFrom l i best bv) 0 = max bv (l.foldr max 0) := by
  intro l
  induction l with
  | nil => intro i best bv _ hb; simpa [maxIdxFrom] using hb
  | cons n t ih =>
      intro i best bv hdrop hb
      have hget : full.getD i 0 = n := by
        have h0 : full[i]? = some n := by
          have := congrArg (fun s => s[0]?) hdrop
          simpa [List.getElem?_drop] using this
        simp [List.getD_eq_getElem?_getD, h0]
      have hdrop' : full.drop (i + 1) = t := by
        have := congrArg List.tail hdrop
        simpa [List.tail_drop] using this
      simp only [maxIdxFrom, List.foldr]
      split
      · rw [ih (i + 1) i n hdrop' hget]; omega
      · rw [ih (i + 1) best bv hdrop' hb]; omega

theorem normalize_sum_split (T : Nat) (counts : List Nat) :
    (counts.map (normalizeCount T)).sum =
      (counts.filter (fun c => decide (c ≠ 0) && decide (c * ProbScale / T = 0))).length +
      ((counts.filter (fun c => decide (c * ProbScale / T ≠ 0))).map
        (fun c => c * ProbScale / T)).sum := by
  induction counts with
  | nil => simp
  | cons a t ih =>
      by_cases ha : a = 0
      · subst ha
        simp only [List.map_cons, List.sum_cons, List.filter_cons]
        have h0 : 0 * ProbScale / T = 0 := by simp
        simp [normalizeCount, h0, ih]
      · by_cases hz : a * ProbScale / T = 0
        · simp only [List.map_cons, List.sum_cons, List.filter_cons]
          simp [normalizeCount, ha, hz, ih]; omega
        · simp only [List.map_cons, List.sum_cons, List.filter_cons]
          simp [normalizeCount, ha, hz, ih]; omega

theorem normalizeCount_eq_floor {T c : Nat} (hc : c ≠ 0)
    (hz : c * ProbScale / T ≠ 0) : normalizeCount T c = c * ProbScale / T := by
  simp [normalizeCount, hc, hz]

set_option maxHeartbeats 1000000 in
/-- Core counting bound behind BuildTable's rounding adjustment: over at
most 256 counts, when the clamped normalization oversums `ProbScale` the
excess is strictly smaller than the largest normalized entry, so
subtracting it from that entry neither underflows nor zeroes it. -/
theorem normalized_excess_lt (counts : List Nat) (hlen : counts.length ≤ 256)
    (hT : counts.sum ≠ 0)
    (hgt : ProbScale < (counts.map (normalizeCount counts.sum)).sum) :
    (counts.map (normalizeCount counts.sum)).sum - ProbScale
      < (counts.map (normalizeCount counts.sum)).foldr max 0 := by
  have hS : ProbScale = 16384 := rfl
  set T := counts.sum with hTdef
  set l := counts.map (normalizeCount T) with hldef
  by_contra hcon
  push_neg at hcon
  set M := l.foldr max 0 with hMdef
  obtain ⟨E, hE⟩ : ∃ E, l.sum = 16384 + E := ⟨l.sum - 16384, by omega⟩
  have hE1 : 1 ≤ E := by omega
  have hME : M ≤ E := by omega
  set pA : Nat → Bool := fun c => decide (c ≠ 0) && decide (c * ProbScale / T = 0)
    with hpA
  set pB : Nat → Bool := fun c => decide (c * ProbScale / T ≠ 0) with hpB
  set k := (counts.filter pA).length with hk
  set B := counts.filter pB with hB
  set SB := (B.map (fun c => c * ProbScale / T)).sum with hSB
  have hdisj : ∀ c, pA c = true → pB c = false := by
    intro c hc
    simp only [hpA, Bool.and_eq_true, decide_eq_true_eq] at hc
    simp [hpB, hc.2]
  have hsplit : l.sum = k + SB := normalize_sum_split T counts
  -- each element of the B image is at most M
  have hBelem : ∀ x ∈ B.map (fun c => c * ProbScale / T), x ≤ M := by
    intro x hx
    obtain ⟨c, hcB, rfl⟩ := List.mem_map.1 hx
    have hmem : c ∈ counts := List.mem_of_mem_filter hcB
    have hz : c * ProbScale / T ≠ 0 := by
      have := List.of_mem_filter hcB
      simpa [hpB] using this
    have hcne : c ≠ 0 := by
      intro h; subst h; simp at hz
    have heq : normalizeCount T c = c * ProbScale / T := normalizeCount_eq_floor hcne hz
    have : normalizeCount T c ∈ l := List.mem_map_of_mem _ hmem
    rw [heq] at this
    exact le_foldr_max l _ this
  have hSB_rM : SB ≤ B.length * M := by
    have := List.sum_le_card_nsmul (B.map (fun c => c * ProbScale / T)) M hBelem
    simpa [smul_eq_mul] using this
  -- the B image sums to at most (ΣB · ProbScale) / T
  have hSB_div : SB ≤ B.sum * ProbScale / T := by
    have h2 := sum_map_div_le (B.map (· * ProbScale)) T
    rw [sum_map_mul_const, List.map_map] at h2
    simpa [Function.comp] using h2
  -- A-side elements are positive, so k is at most their mass
  have hkA : k ≤ (counts.filter pA).sum := by
    refine length_le_sum_of_pos _ ?_
    intro x hx
    have := List.of_mem_filter hx
    simp only [hpA, Bool.and_eq_true, decide_eq_true_eq] at this
    omega
  have hAB : (counts.filter pA).sum + B.sum ≤ T := by
    rw [hB]; exact filter_sum_add_filter_sum_le counts pA pB hdisj
  have hBsum_le : B.sum + k ≤ T := by omega
  have hk1 : 1 ≤ k := by
    by_contra hk0
    push_neg at hk0
    have hBT : B.sum ≤ T := by omega
    have h1 : B.sum * ProbScale ≤ T * ProbScale := Nat.mul_le_mul_right _ hBT
    have h2 := Nat.div_le_div_right (c := T) h1
    have h3 : T * ProbScale / T = ProbScale :=
      Nat.mul_div_cancel_left ProbScale (Nat.pos_of_ne_zero hT)
    omega
  have hSB_lt : SB < ProbScale := by
    have hTpos : 0 < T := Nat.pos_of_ne_zero hT
    have h1 : B.sum * ProbScale ≤ (T - 1) * ProbScale :=
      Nat.mul_le_mul_right _ (by omega)
    have h2 : (T - 1) * ProbScale / T < ProbScale := by
      rw [Nat.div_lt_iff_lt_mul hTpos, hS]
      omega
    have h3 := Nat.div_le_div_right (c := T) h1
    omega
  have hr1 : 1 ≤ B.length := by
    by_contra hr0
    push_neg at hr0
    have hb0 : B.length = 0 := by omega
    have hBnil : B = [] := List.length_eq_zero.1 hb0
    have hSB0 : SB = 0 := by rw [hSB, hBnil]; simp
    have hk256 : k ≤ 256 := le_trans (List.length_filter_le pA counts) hlen
    omega
  have hkr : k + B.length ≤ 256 := by
    rw [hk, hB]
    exact le_trans (filter_length_add_filter_length_le counts pA pB hdisj) hlen
  have hEk : E + 1 ≤ k := by omega
  have hfin : 16384 + E ≤ k + B.length * E := by
    have : SB ≤ B.length * E := le_trans hSB_rM (Nat.mul_le_mul_left _ hME)
    omega
  -- pure integer contradiction
  set r := B.length with hr
  have h1' : (16384 : ℤ) + E ≤ k + r * E := by exact_mod_cast hfin
  have h2' : (E : ℤ) + 1 ≤ k := by exact_mod_cast hEk
  have h3' : (k : ℤ) + r ≤ 256 := by exact_mod_cast hkr
  have h4' : (1 : ℤ) ≤ E := by exact_mod_cast hE1
  have h5' : (1 : ℤ) ≤ r := by exact_mod_cast hr1
  nlinarith [sq_nonneg ((r : ℤ) - E), sq_nonneg ((r : ℤ) + E - 254),
    mul_nonneg (sub_nonneg.2 h5') (sub_nonneg.2 h4')]

theorem sum_set_getD (l : List Nat) (i x : Nat) (hi : i < l.length) :
    (l.set i x).sum + l.getD i 0 = l.sum + x := by
  have hset := List.sum_set l i x
  have hsplit := List.sum_take_add_sum_drop l i
  have hdrop : l.drop i = l[i] :: l.drop (i + 1) := List.drop_eq_getElem_cons hi
  have hgd : l.getD i 0 = l[i] := List.getD_eq_getElem l 0 hi
  rw [hdrop] at hsplit
  simp only [List.sum_cons] at hsplit
  rw [hset, if_pos hi, hgd]
  omega

theorem getD_map_normalize (T : Nat) (counts : List Nat) (i : Nat)
    (hi : i < counts.length) :
    (counts.map (normalizeCount T)).getD i 0 = normalizeCount T (counts.getD i 0) := by
  have him : i < (counts.map (normalizeCount T)).length := by simpa using hi
  rw [List.getD_eq_getElem _ 0 him, List.getElem_map,
    ← List.getD_eq_getElem counts 0 hi]

theorem normalizeCount_pos {T c : Nat} (hc : c ≠ 0) : 1 ≤ normalizeCount T c := by
  simp only [normalizeCount, if_neg hc]
  by_cases h : c * ProbScale / T = 0
  · rw [if_pos h]
  · rw [if_neg h]
    exact Nat.one_le_iff_ne_zero.2 h

theorem normalizeCount_le {T c : Nat} (hcT : c ≤ T) :
    normalizeCount T c ≤ ProbScale := by
  have hS : ProbScale = 16384 := rfl
  rcases Nat.eq_zero_or_pos T with hT | hT
  · subst hT
    have : c = 0 := by omega
    simp [this, normalizeCount]
  · have h1 : c * ProbScale ≤ T * ProbScale := Nat.mul_le_mul_right _ hcT
    have h2 : T * ProbScale / T = ProbScale := Nat.mul_div_cancel_left _ hT
    have h3 := Nat.div_le_div_right (c := T) h1
    simp only [normalizeCount]
    split
    · omega
    · split <;> omega

theorem mem_le_sum {l : List Nat} {x : Nat} (hx : x ∈ l) : x ≤ l.sum :=
  List.single_le_sum (fun _ _ => Nat.zero_le _) x hx

theorem norm_elem_le (counts : List Nat) (x : Nat)
    (hx : x ∈ counts.map (normalizeCount counts.sum)) : x ≤ ProbScale := by
  obtain ⟨c, hc, rfl⟩ := List.mem_map.1 hx
  exact normalizeCount_le (mem_le_sum hc)

theorem norm_sum_lt (counts : List Nat) (hlen : counts.length ≤ 256) :
    (counts.map (normalizeCount counts.sum)).sum < 4294967296 := by
  have h := List.sum_le_card_nsmul (counts.map (normalizeCount counts.sum)) ProbScale
    (norm_elem_le counts)
  rw [smul_eq_mul] at h
  have : (counts.map (normalizeCount counts.sum)).length ≤ 256 := by simpa using hlen
  have hS : ProbScale = 16384 := rfl
  nlinarith

theorem getD_head_mem {l : List Nat} (h : l ≠ []) : l.getD 0 0 ∈ l := by
  cases l with
  | nil => cases h rfl
  | cons a t => simp [List.getD]

/-- The index chosen by BuildTable's scan carries the maximum normalized
value and is in range. -/
theorem maxIdx_spec (l : List Nat) (h : l ≠ []) :
    l.getD (maxIdxFrom l 0 0 (l.getD 0 0)) 0 = l.foldr max 0 ∧
      maxIdxFrom l 0 0 (l.getD 0 0) < l.length := by
  constructor
  · have := getD_maxIdxFrom l l 0 0 (l.getD 0 0) rfl rfl
    rw [this]
    have hmem : l.getD 0 0 ∈ l := getD_head_mem h
    have := le_foldr_max l _ hmem
    omega
  · exact maxIdxFrom_lt l 0 0 (l.getD 0 0) l.length
      (by cases l with | nil => cases h rfl | cons a t => simp) (by omega)

/-- After adjustment the normalized frequencies sum to exactly `ProbScale`. -/
theorem normAdjust_sum (counts : List Nat) (hlen : counts.length ≤ 256)
    (hT : counts.sum ≠ 0) : (normAdjust counts).sum = ProbScale := by
  have hnil : counts ≠ [] := by
    intro h; subst h; simp at hT
  set l := counts.map (normalizeCount counts.sum) with hl
  have hlnil : l ≠ [] := by
    cases counts with
    | nil => cases hnil rfl
    | cons a t => simp [hl]
  simp only [normAdjust, ← hl]
  split
  · assumption
  · rename_i hne
    obtain ⟨hmax, hlt⟩ := maxIdx_spec l hlnil
    set mi := maxIdxFrom l 0 0 (l.getD 0 0) with hmi
    split
    · rename_i hgtS
      have hexc := normalized_excess_lt counts hlen hT (by rw [← hl] at *; omega)
      rw [← hl] at hexc
      have hvlt : l.getD mi 0 < 4294967296 := by
        have h1 : l.getD mi 0 ∈ l := by
          have := List.getD_eq_getElem l 0 hlt
          rw [this]
          exact List.getElem_mem _
        have := mem_le_sum h1
        have := norm_sum_lt counts hlen
        rw [← hl] at *
        omega
      rw [sub32_eq (by omega) hvlt]
      have := sum_set_getD l mi (l.getD mi 0 - (l.sum - ProbScale)) hlt
      omega
    · have := sum_set_getD l mi (l.getD mi 0 + (ProbScale - l.sum)) hlt
      omega

/-- Every symbol with a non-zero count keeps frequency at least 1 after
the adjustment. -/
theorem normAdjust_pos (counts : List Nat) (hlen : counts.length ≤ 256)
    (hT : counts.sum ≠ 0) (i : Nat) (hc : counts.getD i 0 ≠ 0) :
    1 ≤ (normAdjust counts).getD i 0 := by
  have hi : i < counts.length := by
    by_contra hge
    push_neg at hge
    rw [List.getD_eq_default _ _ (by omega)] at hc
    exact hc rfl
  have hnil : counts ≠ [] := by intro h; subst h; simp at hi
  set l := counts.map (normalizeCount counts.sum) with hl
  have hlnil : l ≠ [] := by
    cases counts with
    | nil => cases hnil rfl
    | cons a t => simp [hl]
  have hil : i < l.length := by simpa [hl] using hi
  have hni : 1 ≤ l.getD i 0 := by
    rw [hl, getD_map_normalize _ _ _ hi]
    exact normalizeCount_pos hc
  simp only [normAdjust, ← hl]
  split
  · assumption
  · obtain ⟨hmax, hlt⟩ := maxIdx_spec l hlnil
    set mi := maxIdxFrom l 0 0 (l.getD 0 0) with hmi
    have hvmax : l.getD i 0 ≤ l.getD mi 0 := by
      rw [hmax]
      refine le_foldr_max l _ ?_
      rw [List.getD_eq_getElem l 0 hil]
      exact List.getElem_mem _
    by_cases hieq : i = mi
    · have hgetset : ∀ y, (l.set mi y).getD i 0 = y := by
        intro y
        rw [hieq, List.getD_eq_getElem _ 0 (by simpa using hlt)]
        simp
      have hveq : l.getD i 0 = l.getD mi 0 := by rw [hieq]
      split
      · rename_i hgtS
        have hexc := normalized_excess_lt counts hlen hT (by rw [← hl] at *; omega)
        rw [← hl] at hexc
        have hvlt : l.getD mi 0 < 4294967296 := by
          have h1 : l.getD mi 0 ∈ l := by
            rw [List.getD_eq_getElem l 0 hlt]; exact List.getElem_mem _
          have := mem_le_sum h1
          have := norm_sum_lt counts hlen
          rw [← hl] at *
          omega
        rw [sub32_eq (by omega) hvlt, hgetset]
        omega
      · rw [hgetset]
        omega
    · split
      all_goals
        rw [List.getD_eq_getElem _ 0 (by simpa using hil),
          List.getElem_set_ne (by omega), ← List.getD_eq_getElem l 0 hil]
        omega

theorem normAdjust_length (counts : List Nat) :
    (normAdjust counts).length = counts.length := by
  simp only [normAdjust]
  split
  · simp
  · split <;> simp

theorem buildCums_length (l : List Nat) (c : Nat) :
    (buildCums l c).length = l.length := by
  induction l generalizing c with
  | nil => simp [buildCums]
  | cons n rest ih => simp [buildCums, ih]

theorem buildCums_getD (l : List Nat) : ∀ (c0 i : Nat), i < l.length →
    (buildCums l c0).getD i 0 = c0 + (l.take i).sum := by
  induction l with
  | nil => intro c0 i hi; simp at hi
  | cons n rest ih =>
      intro c0 i hi
      cases i with
      | zero => simp [buildCums, List.getD]
      | succ j =>
          have hj : j < rest.length := by simpa using hi
          simp only [buildCums, List.getD_cons_succ]
          rw [ih (c0 + n) j hj]
          simp [List.take_succ_cons]
          omega

theorem buildLookup_lower : ∀ (l : List Nat) (i c : Nat) (f : Nat → Nat)
    (slot : Nat), slot < c → buildLookup l i c f slot = f slot := by
  intro l
  induction l with
  | nil => intro i c f slot _; rfl
  | cons n rest ih =>
      intro i c f slot hs
      simp only [buildLookup]
      rw [ih (i + 1) (c + n) _ slot (by omega)]
      simp only [writeSlots]
      rw [if_neg (by omega)]

theorem buildLookup_at : ∀ (l : List Nat) (i c : Nat) (f : Nat → Nat)
    (j s : Nat), j < l.length → s < l.getD j 0 →
    buildLookup l i c f (c + (l.take j).sum + s) = i + j := by
  intro l
  induction l with
  | nil => intro i c f j s hj _; simp at hj
  | cons n rest ih =>
      intro i c f j s hj hs
      cases j with
      | zero =>
          simp only [List.getD_cons_zero] at hs
          simp only [buildLookup, List.take_zero, List.sum_nil]
          rw [buildLookup_lower rest (i + 1) (c + n) _ _ (by omega)]
          simp only [writeSlots]
          rw [if_pos (by omega)]
          omega
      | succ j' =>
          have hj' : j' < rest.length := by simpa using hj
          simp only [List.getD_cons_succ] at hs
          simp only [buildLookup]
          have harg : c + ((n :: rest).take (j' + 1)).sum + s
              = (c + n) + (rest.take j').sum + s := by
            simp [List.take_succ_cons]
            omega
          rw [harg, ih (i + 1) (c + n) _ j' s hj' hs]
          omega

theorem buildLookup_lt : ∀ (l : List Nat) (i c : Nat) (f : Nat → Nat)
    (B : Nat), (∀ slot, f slot < B) → i + l.length ≤ B →
    ∀ slot, buildLookup l i c f slot < B := by
  intro l
  induction l with
  | nil => intro i c f B hf _ slot; exact hf slot
  | cons n rest ih =>
      intro i c f B hf hlen slot
      simp only [List.length_cons] at hlen
      simp only [buildLookup]
      refine ih (i + 1) (c + n) _ B ?_ (by omega) slot
      intro s
      simp only [writeSlots]
      split
      · omega
      · exact hf s

theorem BuildTable_freqs (counts : List Nat) (hT : counts.sum ≠ 0) :
    (BuildTable counts).freqs = normAdjust counts := by
  simp [BuildTable, hT]

theorem BuildTable_cums (counts : List Nat) (hT : counts.sum ≠ 0) :
    (BuildTable counts).cums = buildCums (normAdjust counts) 0 := by
  simp [BuildTable, hT]

theorem BuildTable_cumToSym (counts : List Nat) (hT : counts.sum ≠ 0) :
    (BuildTable counts).cumToSym
      = buildLookup (normAdjust counts) 0 0 (fun _ => 0) := by
  simp [BuildTable, hT]

/-- For a table built from non-degenerate counts of length 256:
the cumulative frequency of a symbol is the prefix sum of the adjusted
frequencies. -/
theorem BuildTable_cum_eq (counts : List Nat) (h256 : counts.length = 256)
    (hT : counts.sum ≠ 0) (s : Nat) (hs : s < 256) :
    (BuildTable counts).cum s = ((normAdjust counts).take s).sum := by
  have hlen : (normAdjust counts).length = 256 := by
    rw [normAdjust_length, h256]
  rw [SymbolTable.cum, BuildTable_cums counts hT,
    buildCums_getD _ 0 s (by omega)]
  omega

theorem BuildTable_freq_eq (counts : List Nat) (hT : counts.sum ≠ 0) (s : Nat) :
    (BuildTable counts).freq s = (normAdjust counts).getD s 0 := by
  rw [SymbolTable.freq, BuildTable_freqs counts hT]

/-- Prefix sum plus the element at `s` is bounded by the total. -/
theorem take_sum_add_getD_le (l : List Nat) (s : Nat) (hs : s < l.length) :
    (l.take s).sum + l.getD s 0 ≤ l.sum := by
  have hsplit := List.sum_take_add_sum_drop l s
  have hdrop : l.drop s = l[s] :: l.drop (s + 1) := List.drop_eq_getElem_cons hs
  have hgd : l.getD s 0 = l[s] := List.getD_eq_getElem l 0 hs
  rw [hdrop] at hsplit
  simp only [List.sum_cons] at hsplit
  omega

/-- Symbol ranges of a non-degenerate table stay within `ProbScale`. -/
theorem BuildTable_cum_add_freq_le (counts : List Nat)
    (h256 : counts.length = 256) (hlen : counts.length ≤ 256)
    (hT : counts.sum ≠ 0) (s : Nat) (hs : s < 256) :
    (BuildTable counts).cum s + (BuildTable counts).freq s ≤ ProbScale := by
  have hlen' : (normAdjust counts).length = 256 := by
    rw [normAdjust_length, h256]
  rw [BuildTable_cum_eq counts h256 hT s hs, BuildTable_freq_eq counts hT s]
  have := take_sum_add_getD_le (normAdjust counts) s (by omega)
  rw [normAdjust_sum counts hlen hT] at this
  exact this

/-- The reverse lookup of a non-degenerate table maps every slot of a
symbol's range back to the symbol. -/
theorem BuildTable_lookup_eq (counts : List Nat) (h256 : counts.length = 256)
    (hT : counts.sum ≠ 0) (s j : Nat) (hs : s < 256)
    (hj : j < (BuildTable counts).freq s) :
    (BuildTable counts).cumToSym ((BuildTable counts).cum s + j) = s := by
  have hlen' : (normAdjust counts).length = 256 := by
    rw [normAdjust_length, h256]
  rw [BuildTable_cumToSym counts hT, BuildTable_cum_eq counts h256 hT s hs]
  rw [BuildTable_freq_eq counts hT s] at hj
  have := buildLookup_at (normAdjust counts) 0 0 (fun _ => 0) s j (by omega) hj
  simpa using this

/-- Any table built by BuildTable from 256 counts looks up symbols below
256 at every slot. -/
theorem BuildTable_lookup_lt (counts : List Nat) (h256 : counts.length = 256)
    (slot : Nat) : (BuildTable counts).cumToSym slot < 256 := by
  by_cases hT : counts.sum = 0
  · unfold BuildTable
    rw [if_pos hT]
    show (0 : Nat) < 256
    omega
  · rw [BuildTable_cumToSym counts hT]
    refine buildLookup_lt (normAdjust counts) 0 0 _ 256 (fun _ => by omega) ?_ slot
    rw [normAdjust_length, h256]

/-- Frequencies of a non-degenerate table are bounded by `ProbScale`. -/
theorem BuildTable_freq_le (counts : List Nat)
    (hlen : counts.length ≤ 256) (hT : counts.sum ≠ 0) (s : Nat) :
    (BuildTable counts).freq s ≤ ProbScale := by
  rw [BuildTable_freq_eq counts hT s]
  by_cases hs : s < (normAdjust counts).length
  · have h1 : (normAdjust counts).getD s 0 ∈ normAdjust counts := by
      rw [List.getD_eq_getElem _ 0 hs]; exact List.getElem_mem _
    have := mem_le_sum h1
    rw [normAdjust_sum counts hlen hT] at this
    exact this
  · rw [List.getD_eq_default _ _ (by omega)]
    exact Nat.zero_le _

theorem encRenorm_lt (m : Nat) (hm : 0 < m) : ∀ st, (encRenorm m st).1 < m := by
  intro st
  induction st using Nat.strong_induction_on with
  | _ st ih =>
    rw [encRenorm]
    split
    · rename_i h
      exact ih (st / 256) (Nat.div_lt_self (by omega) (by omega))
    · rename_i h
      show st < m
      omega

theorem encRenorm_ge (m : Nat) : ∀ st, m / 256 ≤ st →
    m / 256 ≤ (encRenorm m st).1 := by
  intro st
  induction st using Nat.strong_induction_on with
  | _ st ih =>
    intro hst
    rw [encRenorm]
    split
    · rename_i h
      exact ih (st / 256) (Nat.div_lt_self (by omega) (by omega))
        (Nat.div_le_div_right h.2)
    · rename_i h
      exact hst

theorem decRenorm_high (st : Nat) (h : RansL ≤ st) :
    ∀ stream, decRenorm st stream = (st, stream) := by
  intro stream
  cases stream with
  | nil => rfl
  | cons b rest =>
      simp only [decRenorm]
      rw [if_neg (by have : RansL = 8388608 := rfl; omega)]

/-- Decoding renormalization consumes exactly the bytes the encoder
renormalization emitted (in reverse), landing back on the pre-emission
state. -/
theorem decRenorm_encRenorm (m : Nat) (hm : 0 < m) :
    ∀ st, st < 2147483648 → ∀ rest,
    decRenorm (encRenorm m st).1 ((encRenorm m st).2.reverse ++ rest)
      = decRenorm st rest := by
  intro st
  induction st using Nat.strong_induction_on with
  | _ st ih =>
    intro hst rest
    rw [encRenorm]
    split
    · rename_i h
      show decRenorm (encRenorm m (st / 256)).1
        (((st % 256) :: (encRenorm m (st / 256)).2).reverse ++ rest)
          = decRenorm st rest
      rw [List.reverse_cons, List.append_assoc]
      rw [ih (st / 256) (Nat.div_lt_self (by omega) (by omega)) (by omega)
        ([st % 256] ++ rest)]
      show decRenorm (st / 256) (st % 256 :: rest) = decRenorm st rest
      have hL : RansL = 8388608 := rfl
      simp only [decRenorm]
      rw [if_pos (by omega)]
      congr 1
      omega
    · rename_i h
      show decRenorm st (List.reverse [] ++ rest) = decRenorm st rest
      simp

theorem shiftConsts : (RansL >>> ProbBits) <<< 8 = 131072 := rfl

/-- State bounds of one Encoder.Encode step. -/
theorem encodeSym_bounds (tab : SymbolTable) (sym st : Nat)
    (hf1 : 1 ≤ tab.freq sym) (hcf : tab.cum sym + tab.freq sym ≤ ProbScale)
    (hstL : RansL ≤ st) (hst31 : st < 2147483648) :
    RansL ≤ (encodeSym tab sym st).1 ∧ (encodeSym tab sym st).1 < 2147483648 := by
  have hS : ProbScale = 16384 := rfl
  have hL : RansL = 8388608 := rfl
  have h14 : (2 : Nat) ^ ProbBits = 16384 := rfl
  have hfle : tab.freq sym ≤ 16384 := by omega
  simp only [encodeSym, shiftConsts]
  rw [if_neg (by omega : ¬tab.freq sym = 0)]
  set freq := tab.freq sym with hfreq
  set s1 := (encRenorm (131072 * freq) st).1 with hs1
  have hlt : s1 < 131072 * freq := encRenorm_lt _ (by omega) st
  have hge : 512 * freq ≤ s1 := by
    have hdiv : 131072 * freq / 256 = 512 * freq := by omega
    have := encRenorm_ge (131072 * freq) st (by rw [hdiv]; omega)
    omega
  have hdiv_ge : 512 ≤ s1 / freq := Nat.le_div_iff_mul_le (by omega) |>.2 (by omega)
  have hdiv_lt : s1 / freq < 131072 := by
    rw [Nat.div_lt_iff_lt_mul (by omega)]
    omega
  have hmod : s1 % freq < freq := Nat.mod_lt _ (by omega)
  rw [Nat.shiftLeft_eq, h14]
  have hmul1 : 512 * 16384 ≤ s1 / freq * 16384 := Nat.mul_le_mul_right _ hdiv_ge
  have hmul2 : s1 / freq * 16384 ≤ 131071 * 16384 :=
    Nat.mul_le_mul_right _ (by omega)
  constructor
  · show RansL ≤ s1 / freq * 16384 + tab.cum sym + s1 % freq
    omega
  · show s1 / freq * 16384 + tab.cum sym + s1 % freq < 2147483648
    omega

/-- Decoder.Decode applied to an encoded state recovers the symbol and
the pre-encoding (renormalized) state. -/
theorem decodeSym_inv (tab : SymbolTable) (sym f c s1 : Nat)
    (hf1 : 1 ≤ f) (hfc : c + f ≤ ProbScale) (hs32 : s1 < 4294967296)
    (hfreq : tab.freq sym = f) (hcum : tab.cum sym = c)
    (hlook : tab.cumToSym (c + s1 % f) = sym) (stream : List Nat) :
    decodeSym tab (s1 / f * 2 ^ ProbBits + c + s1 % f) stream
      = (sym, decRenorm s1 stream) := by
  have hS : ProbScale = 16384 := rfl
  have h14 : (2 : Nat) ^ ProbBits = 16384 := rfl
  have hmod : s1 % f < f := Nat.mod_lt _ (by omega)
  have hdm := Nat.div_add_mod s1 f
  have hslot : (s1 / f * 2 ^ ProbBits + c + s1 % f) % ProbScale = c + s1 % f := by
    rw [hS, h14]
    omega
  have hshr : (s1 / f * 2 ^ ProbBits + c + s1 % f) >>> ProbBits = s1 / f := by
    rw [Nat.shiftRight_eq_div_pow, h14]
    omega
  simp only [decodeSym, hslot, hshr, hlook, hfreq, hcum]
  have hst1 : (f * (s1 / f) + (c + s1 % f) + (4294967296 - c)) % 4294967296
      = s1 % 4294967296 := by
    omega
  rw [hst1, Nat.mod_eq_of_lt hs32]

/-- One Decoder.Decode step inverts one Encoder.Encode step, restoring
the state and leaving the trailing stream untouched. -/
theorem decodeSym_encodeSym (tab : SymbolTable) (sym st : Nat)
    (hf1 : 1 ≤ tab.freq sym) (hcf : tab.cum sym + tab.freq sym ≤ ProbScale)
    (hlook : ∀ j, j < tab.freq sym → tab.cumToSym (tab.cum sym + j) = sym)
    (hstL : RansL ≤ st) (hst31 : st < 2147483648) (rest : List Nat) :
    decodeSym tab (encodeSym tab sym st).1
        ((encodeSym tab sym st).2.reverse ++ rest)
      = (sym, st, rest) := by
  have hS : ProbScale = 16384 := rfl
  have hL : RansL = 8388608 := rfl
  have hfle : tab.freq sym ≤ 16384 := by omega
  simp only [encodeSym, shiftConsts]
  rw [if_neg (by omega : ¬tab.freq sym = 0)]
  set freq := tab.freq sym with hfreq
  set cum := tab.cum sym with hcum
  set s1 := (encRenorm (131072 * freq) st).1 with hs1
  set em := (encRenorm (131072 * freq) st).2 with hem
  have hlt : s1 < 131072 * freq := encRenorm_lt _ (by omega) st
  have hmul : 131072 * freq ≤ 131072 * 16384 := Nat.mul_le_mul_left _ hfle
  have hmod : s1 % freq < freq := Nat.mod_lt _ (by omega)
  rw [Nat.shiftLeft_eq]
  rw [decodeSym_inv tab sym freq cum s1 hf1 (by omega) (by omega) hfreq.symm
    hcum.symm (hlook (s1 % freq) hmod) (em.reverse ++ rest)]
  have hdec := decRenorm_encRenorm (131072 * freq) (by omega) st hst31 rest
  rw [← hs1, ← hem] at hdec
  rw [hdec, decRenorm_high st hstL]

theorem encLoop_out (tab : SymbolTable) :
    ∀ (ps : List Nat) (st : Nat) (out : List Nat),
    encLoop tab ps st out
      = ((encLoop tab ps st []).1, out ++ (encLoop tab ps st []).2) := by
  intro ps
  induction ps with
  | nil => intro st out; simp [encLoop]
  | cons s rest ih =>
      intro st out
      simp only [encLoop]
      rw [ih _ (out ++ _), ih _ ([] ++ _)]
      simp

theorem encLoop_append (tab : SymbolTable) :
    ∀ (xs ys : List Nat) (st : Nat) (out : List Nat),
    encLoop tab (xs ++ ys) st out
      = encLoop tab ys (encLoop tab xs st out).1 (encLoop tab xs st out).2 := by
  intro xs
  induction xs with
  | nil => intro ys st out; simp [encLoop]
  | cons x rest ih =>
      intro ys st out
      simp only [List.cons_append, encLoop, List.append_eq]
      rw [ih]

theorem encLoop_bounds (tab : SymbolTable) :
    ∀ (ps : List Nat) (st : Nat) (out : List Nat),
    (∀ s ∈ ps, 1 ≤ tab.freq s ∧ tab.cum s + tab.freq s ≤ ProbScale) →
    RansL ≤ st → st < 2147483648 →
    RansL ≤ (encLoop tab ps st out).1 ∧ (encLoop tab ps st out).1 < 2147483648 := by
  intro ps
  induction ps with
  | nil => intro st out _ h1 h2; exact ⟨h1, h2⟩
  | cons s rest ih =>
      intro st out hps h1 h2
      obtain ⟨hf1, hcf⟩ := hps s (by simp)
      obtain ⟨b1, b2⟩ := encodeSym_bounds tab s st hf1 hcf h1 h2
      simp only [encLoop]
      exact ih _ _ (fun x hx => hps x (by simp [hx])) b1 b2

/-- The decode loop of ans.Decompress inverts the encode loop of
ans.Compress: decoding `data.length` symbols from the reversed encoder
output (with any trailing bytes) returns the data in forward order. -/
theorem decLoop_encLoop (tab : SymbolTable) :
    ∀ (data : List Nat),
    (∀ b ∈ data, 1 ≤ tab.freq b ∧ tab.cum b + tab.freq b ≤ ProbScale ∧
      ∀ j, j < tab.freq b → tab.cumToSym (tab.cum b + j) = b) →
    ∀ st, RansL ≤ st → st < 2147483648 → ∀ rest,
    decLoop tab data.length (encLoop tab data.reverse st []).1
        ((encLoop tab data.reverse st []).2.reverse ++ rest)
      = (data, st, rest) := by
  intro data
  induction data with
  | nil => intro _ st h1 h2 rest; simp [encLoop, decLoop]
  | cons d data' ih =>
      intro hall st h1 h2 rest
      obtain ⟨hf1, hcf, hlook⟩ := hall d (by simp)
      have hrev : (d :: data').reverse = data'.reverse ++ [d] := by simp
      rw [hrev, encLoop_append]
      set st1 := (encLoop tab data'.reverse st []).1 with hst1
      set dlt := (encLoop tab data'.reverse st []).2 with hdlt
      have hb : RansL ≤ st1 ∧ st1 < 2147483648 := by
        refine encLoop_bounds tab data'.reverse st [] ?_ h1 h2
        intro x hx
        have := hall x (by simp at hx; simp [hx])
        exact ⟨this.1, this.2.1⟩
      simp only [encLoop]
      rw [List.reverse_append, List.append_assoc]
      have hstep := decodeSym_encodeSym tab d st1 hf1 hcf hlook hb.1 hb.2
        (dlt.reverse ++ rest)
      have hrec := ih (fun b hb2 => hall b (by simp [hb2])) st h1 h2 rest
      rw [← hst1, ← hdlt] at hrec
      simp only [List.length_cons, decLoop, hstep, hrec]

theorem foldl_set_length (data : List Nat) : ∀ (cnts : List Nat),
    (data.foldl (fun c b => c.set b (c.getD b 0 + 1)) cnts).length
      = cnts.length := by
  induction data with
  | nil => intro cnts; rfl
  | cons a rest ih =>
      intro cnts
      simp only [List.foldl_cons]
      rw [ih]
      simp

theorem foldl_set_getD (data : List Nat) : ∀ (cnts : List Nat) (b : Nat),
    (∀ x ∈ data, x < cnts.length) → b < cnts.length →
    (data.foldl (fun c x => c.set x (c.getD x 0 + 1)) cnts).getD b 0
      = cnts.getD b 0 + data.count b := by
  induction data with
  | nil => intro cnts b _ _; simp
  | cons a rest ih =>
      intro cnts b hin hb
      have ha : a < cnts.length := hin a (by simp)
      simp only [List.foldl_cons]
      rw [ih (cnts.set a (cnts.getD a 0 + 1)) b
        (fun x hx => by rw [List.length_set]; exact hin x (by simp [hx]))
        (by rw [List.length_set]; exact hb)]
      by_cases hab : b = a
      · subst hab
        rw [List.getD_eq_getElem _ 0 (by simpa using hb),
          List.getElem_set_self, List.count_cons_self]
        omega
      · rw [List.getD_eq_getElem _ 0 (by simpa using hb),
          List.getElem_set_ne (by omega), ← List.getD_eq_getElem cnts 0 hb,
          List.count_cons_of_ne hab]

theorem foldl_set_sum (data : List Nat) : ∀ (cnts : List Nat),
    (∀ x ∈ data, x < cnts.length) →
    (data.foldl (fun c x => c.set x (c.getD x 0 + 1)) cnts).sum
      = cnts.sum + data.length := by
  induction data with
  | nil => intro cnts _; simp
  | cons a rest ih =>
      intro cnts hin
      have ha : a < cnts.length := hin a (by simp)
      simp only [List.foldl_cons]
      rw [ih (cnts.set a (cnts.getD a 0 + 1))
        (fun x hx => by rw [List.length_set]; exact hin x (by simp [hx]))]
      have := sum_set_getD cnts a (cnts.getD a 0 + 1) ha
      simp only [List.length_cons]
      omega

theorem getD_replicate_zero (n b : Nat) :
    (List.replicate n (0 : Nat)).getD b 0 = 0 := by
  by_cases hb : b < n
  · rw [List.getD_eq_getElem _ 0 (by simpa using hb)]
    simp
  · rw [List.getD_eq_default _ _ (by simpa using hb)]

theorem countFreqs_length (data : List Nat) : (countFreqs data).length = 256 := by
  unfold countFreqs
  rw [foldl_set_length, List.length_replicate]

theorem countFreqs_getD (data : List Nat) (hbytes : ∀ b ∈ data, b < 256)
    (b : Nat) (hb : b < 256) : (countFreqs data).getD b 0 = data.count b := by
  unfold countFreqs
  rw [foldl_set_getD data _ b (by rw [List.length_replicate]; exact hbytes)
    (by rw [List.length_replicate]; exact hb)]
  rw [getD_replicate_zero]
  omega

theorem countFreqs_sum (data : List Nat) (hbytes : ∀ b ∈ data, b < 256) :
    (countFreqs data).sum = data.length := by
  unfold countFreqs
  rw [foldl_set_sum data _ (by rw [List.length_replicate]; exact hbytes)]
  rw [List.sum_replicate, smul_eq_mul, Nat.mul_zero, Nat.zero_add]

theorem readU32_putU32 (v : Nat) (rest : List Nat) :
    readU32LE (putU32LE v ++ rest) 0 = v % 4294967296 := by
  show v % 256 + 256 * (v / 256 % 256) + 65536 * (v / 65536 % 256) +
    16777216 * (v / 16777216 % 256) = v % 4294967296
  omega

theorem readU16_putU16 (v : Nat) (rest : List Nat) :
    readU16LE (putU16LE v ++ rest) 0 = v % 65536 := by
  show v % 256 + 256 * (v / 256 % 256) = v % 65536
  omega

theorem getD_append_right' (A B : List Nat) (j : Nat) :
    (A ++ B).getD (A.length + j) 0 = B.getD j 0 := by
  simp only [List.getD_eq_getElem?_getD]
  rw [List.getElem?_append_right (Nat.le_add_right A.length j)]
  congr 2
  omega

theorem readU16_append_right (A B : List Nat) (j : Nat) :
    readU16LE (A ++ B) (A.length + j) = readU16LE B j := by
  unfold readU16LE
  rw [show A.length + j + 1 = A.length + (j + 1) from by omega]
  rw [getD_append_right' A B j, getD_append_right' A B (j + 1)]

theorem flatten_putU16_length (n : Nat) (g : Nat → Nat) :
    (((List.range n).map (fun k => putU16LE (g k))).flatten).length = 2 * n := by
  induction n with
  | zero => rfl
  | succ m ih =>
      rw [List.range_succ]
      simp only [List.map_append, List.flatten_append, List.length_append]
      rw [ih]
      simp only [List.map_cons, List.map_nil, List.flatten_cons,
        List.flatten_nil, List.append_nil]
      show 2 * m + 2 = 2 * (m + 1)
      omega

theorem serIdx (g : Nat → Nat) : ∀ (n : Nat) (tail : List Nat) (i : Nat), i < n →
    readU16LE ((((List.range n).map (fun k => putU16LE (g k))).flatten) ++ tail)
      (i * 2) = g i % 65536 := by
  intro n
  induction n with
  | zero => intro tail i hi; omega
  | succ m ih =>
      intro tail i hi
      rw [List.range_succ]
      simp only [List.map_append, List.flatten_append]
      by_cases him : i < m
      · rw [List.append_assoc]
        exact ih _ i him
      · have hieq : i = m := by omega
        subst hieq
        have hlen : (((List.range i).map (fun k => putU16LE (g k))).flatten).length
            = i * 2 := by rw [flatten_putU16_length]; omega
        rw [List.append_assoc, show i * 2 = i * 2 + 0 from by omega, ← hlen]
        rw [readU16_append_right]
        simp only [List.map_cons, List.map_nil, List.flatten_cons,
          List.flatten_nil, List.append_nil]
        exact readU16_putU16 (g i) tail

theorem map_getD_range (l : List Nat) :
    (List.range l.length).map (fun i => l.getD i 0) = l := by
  apply List.ext_getElem
  · simp
  · intro i h1 h2
    simp only [List.getElem_map, List.getElem_range]
    exact (List.getD_eq_getElem l 0 h2).symm ▸ rfl

/-- Normalization is the identity on a frequency list that already sums
to `ProbScale`. -/
theorem normAdjust_fixpoint (l : List Nat) (hsum : l.sum = ProbScale) :
    normAdjust l = l := by
  have hmap : l.map (normalizeCount l.sum) = l := by
    have hcong : ∀ c ∈ l, normalizeCount l.sum c = c := by
      intro c hc
      by_cases hc0 : c = 0
      · simp [normalizeCount, hc0]
      · have hPS : l.sum = 16384 := by rw [hsum]; rfl
        have hdiv : c * ProbScale / l.sum = c := by
          rw [hPS]
          show c * 16384 / 16384 = c
          omega
        simp [normalizeCount, hc0, hdiv]
    rw [List.map_congr_left hcong]
    exact List.map_id' l
  simp only [normAdjust]
  rw [hmap, hsum]
  simp

theorem BuildTable_idem (counts : List Nat) (hlen : counts.length ≤ 256)
    (hT : counts.sum ≠ 0) :
    BuildTable (normAdjust counts) = BuildTable counts := by
  have hsum := normAdjust_sum counts hlen hT
  have hne : (normAdjust counts).sum ≠ 0 := by
    rw [hsum]
    show (16384 : Nat) ≠ 0
    omega
  unfold BuildTable
  rw [if_neg hne, if_neg hT, normAdjust_fixpoint _ hsum]

/-- Shape of the non-empty ans.Compress output. -/
theorem Compress_eq (data : List Nat) (hne : data.length ≠ 0) :
    Compress data
      = putU32LE data.length ++ serFreqs (BuildTable (countFreqs data)) ++
        (putU32LE (encLoop (BuildTable (countFreqs data)) data.reverse RansL []).1
          ++ (encLoop (BuildTable (countFreqs data)) data.reverse RansL []).2.reverse) := by
  simp [Compress, hne]

theorem serFreqs_length (tab : SymbolTable) : (serFreqs tab).length = 512 := by
  unfold serFreqs
  rw [flatten_putU16_length]

/-- ans round-trip for inputs whose length fits the 32-bit header. -/
theorem ans_roundtrip (data : List Nat) (hbytes : ∀ b ∈ data, b < 256)
    (hlen : data.length < 4294967296) :
    Decompress (Compress data) = some data := by
  by_cases hnil : data = []
  · subst hnil
    rfl
  · have hne : data.length ≠ 0 := by
      intro h
      exact hnil (List.length_eq_zero.1 h)
    have h256 : (countFreqs data).length = 256 := countFreqs_length data
    have hsum : (countFreqs data).sum = data.length := countFreqs_sum data hbytes
    have hT : (countFreqs data).sum ≠ 0 := by omega
    set counts := countFreqs data with hcounts
    set tab := BuildTable counts with htab
    have hprops : ∀ b ∈ data, 1 ≤ tab.freq b ∧ tab.cum b + tab.freq b ≤ ProbScale ∧
        ∀ j, j < tab.freq b → tab.cumToSym (tab.cum b + j) = b := by
      intro b hbmem
      have hb256 : b < 256 := hbytes b hbmem
      have hcount : counts.getD b 0 ≠ 0 := by
        rw [hcounts, countFreqs_getD data hbytes b hb256]
        have := List.count_pos_iff.2 hbmem
        omega
      refine ⟨?_, ?_, ?_⟩
      · rw [htab, BuildTable_freq_eq counts hT b]
        exact normAdjust_pos counts (by omega) hT b hcount
      · exact BuildTable_cum_add_freq_le counts h256 (by omega) hT b hb256
      · intro j hj
        exact BuildTable_lookup_eq counts h256 hT b j hb256 hj
    have hL31 : RansL < 2147483648 := by
      show (8388608 : Nat) < 2147483648
      omega
    set r := encLoop tab data.reverse RansL [] with hr
    have hbounds : RansL ≤ r.1 ∧ r.1 < 2147483648 := by
      refine encLoop_bounds tab data.reverse RansL [] ?_ (le_refl _) hL31
      intro s hs
      have := hprops s (by simpa using hs)
      exact ⟨this.1, this.2.1⟩
    have hdec := decLoop_encLoop tab data hprops RansL (le_refl _) hL31 []
    rw [List.append_nil, ← hr] at hdec
    have hC := Compress_eq data hne
    rw [← hcounts, ← htab, ← hr] at hC
    rw [hC]
    set F := serFreqs tab with hF
    set body := putU32LE r.1 ++ r.2.reverse with hbody
    have hFlen : F.length = 512 := serFreqs_length tab
    have hbodylen : 4 ≤ body.length := by
      rw [hbody]
      simp [putU32LE]
    have htotal : (putU32LE data.length ++ F ++ body).length = 516 + body.length := by
      rw [List.length_append, List.length_append, hFlen]
      rfl
    unfold Decompress
    rw [if_neg (by omega)]
    rw [List.append_assoc, readU32_putU32, Nat.mod_eq_of_lt hlen]
    rw [if_neg hne]
    rw [if_neg (by rw [← List.append_assoc]; omega)]
    have hfreqle : ∀ i, tab.freq i ≤ 16384 := by
      intro i
      have := BuildTable_freq_le counts (by omega) hT i
      rw [← htab] at this
      have hPS : ProbScale = 16384 := rfl
      omega
    have hcounts2 : (List.range 256).map
        (fun i => readU16LE (putU32LE data.length ++ (F ++ body)) (4 + i * 2))
        = tab.freqs := by
      have hmapeq : ∀ i ∈ List.range 256,
          readU16LE (putU32LE data.length ++ (F ++ body)) (4 + i * 2)
            = tab.freq i := by
        intro i hi
        have hi256 : i < 256 := by simpa using hi
        rw [show (4 : Nat) + i * 2 = (putU32LE data.length).length + i * 2 from rfl]
        rw [readU16_append_right]
        have hser : readU16LE
            ((((List.range 256).map (fun k => putU16LE (tab.freq k % 65536))).flatten)
              ++ body) (i * 2) = tab.freq i % 65536 % 65536 :=
          serIdx (fun k => tab.freq k % 65536) 256 body i hi256
        rw [hF]
        unfold serFreqs
        rw [hser]
        have := hfreqle i
        omega
      rw [List.map_congr_left hmapeq]
      have hlen2 : tab.freqs.length = 256 := by
        rw [htab, BuildTable_freqs counts hT, normAdjust_length]
        omega
      have hmr := map_getD_range tab.freqs
      rw [hlen2] at hmr
      have hfe : ∀ i ∈ List.range 256, tab.freq i = tab.freqs.getD i 0 := by
        intro i _
        rfl
      rw [List.map_congr_left hfe, hmr]
    have htabeq : BuildTable tab.freqs = tab := by
      rw [htab, BuildTable_freqs counts hT, BuildTable_idem counts (by omega) hT]
    simp only [hcounts2, htabeq]
    have hdroplen : ((putU32LE data.length ++ (F ++ body)).drop 516) = body := by
      rw [← List.append_assoc]
      have h516 : (putU32LE data.length ++ F).length = 516 := by
        rw [List.length_append, hFlen]
        rfl
      rw [← h516, List.drop_left]
    rw [hdroplen]
    rw [if_neg (by omega)]
    rw [hbody, readU32_putU32, Nat.mod_eq_of_lt (by omega)]
    have hdrop4 : (putU32LE r.1 ++ r.2.reverse).drop 4 = r.2.reverse := by
      have h4 : (putU32LE r.1).length = 4 := rfl
      rw [← h4, List.drop_left]
    rw [hdrop4, hdec]

end ans

namespace ans

theorem decLoop_length (tab : SymbolTable) :
    ∀ (n st : Nat) (stream : List Nat), (decLoop tab n st stream).1.length = n := by
  intro n
  induction n with
  | zero => intro st stream; rfl
  | succ m ih =>
      intro st stream
      simp only [decLoop, List.length_cons]
      rw [ih]

end ans

namespace bpe

theorem trieOK_empty (v : Vocab) (pre : List Nat) : TrieOK v FastTrie.empty pre := by
  refine TrieOK.mk _ _ _ _ ?_ ?_
  · intro h
    cases h
  · intro b t2 h
    cases h

theorem trieOK_insert (v : Vocab) : ∀ (w : List Nat) (t : FastTrie)
    (pre : List Nat) (id : Nat), TrieOK v t pre → id < v.length →
    v.getD id [] = pre ++ w → TrieOK v (t.insert w id) pre := by
  intro w
  induction w with
  | nil =>
      intro t pre id hok hid hval
      obtain ⟨ch, tid, tok, pre, htok, hch⟩ := hok
      refine TrieOK.mk _ _ _ _ ?_ hch
      intro _
      exact ⟨hid, by simpa using hval⟩
  | cons b rest ih =>
      intro t pre id hok hid hval
      obtain ⟨ch, tid, tok, pre, htok, hch⟩ := hok
      refine TrieOK.mk _ _ _ _ htok ?_
      intro b2 t2 h2
      by_cases hb : b2 = b
      · subst hb
        rw [if_pos rfl] at h2
        cases h2
        have hchild : TrieOK v ((ch b2).getD FastTrie.empty) (pre ++ [b2]) := by
          cases hcb : ch b2 with
          | none => simpa [hcb] using trieOK_empty v (pre ++ [b2])
          | some c => simpa [hcb] using hch b2 c hcb
        exact ih _ (pre ++ [b2]) id hchild hid (by simpa using hval)
      · rw [if_neg hb] at h2
        exact hch b2 t2 h2

theorem enum_pair_spec (v : Vocab) (p : Nat × List Nat) (hp : p ∈ v.enum) :
    p.1 < v.length ∧ v.getD p.1 [] = p.2 := by
  obtain ⟨i, hi, hEq⟩ := List.getElem_of_mem hp
  have hil : i < v.length := by
    simpa [List.enum_eq_enumFrom, List.enumFrom_length] using hi
  have h2 : v.enum[i] = (i, v.getD i []) := by
    simp [List.enum_eq_enumFrom, List.getElem_enumFrom, List.getD,
      List.getElem?_eq_getElem hil]
  rw [h2] at hEq
  subst hEq
  exact ⟨hil, rfl⟩

theorem enum_mem_of_lt (v : Vocab) (i : Nat) (hi : i < v.length) :
    (i, v.getD i []) ∈ v.enum := by
  have hlen : i < v.enum.length := by
    simpa [List.enum_eq_enumFrom, List.enumFrom_length] using hi
  have hEq : v.enum[i] = (i, v.getD i []) := by
    simp [List.enum_eq_enumFrom, List.getElem_enumFrom, List.getD,
      List.getElem?_eq_getElem hi]
  rw [← hEq]
  exact List.getElem_mem hlen

theorem foldl_insert_ok (v : Vocab) : ∀ (ps : List (Nat × List Nat))
    (t : FastTrie), TrieOK v t [] →
    (∀ p ∈ ps, p.1 < v.length ∧ v.getD p.1 [] = p.2) →
    TrieOK v (ps.foldl (fun t p => t.insert p.2 p.1) t) [] := by
  intro ps
  induction ps with
  | nil => intro t h _; exact h
  | cons p rest ih =>
      intro t h hall
      simp only [List.foldl_cons]
      refine ih _ ?_ (fun q hq => hall q (by simp [hq]))
      obtain ⟨h1, h2⟩ := hall p (by simp)
      exact trieOK_insert v p.2 t [] p.1 h (by omega) (by simpa using h2)

theorem buildTrie_ok (v : Vocab) : TrieOK v (buildTrie v) [] := by
  unfold buildTrie
  exact foldl_insert_ok v v.enum FastTrie.empty (trieOK_empty v [])
    (fun p hp => enum_pair_spec v p hp)

theorem hasTok_insert_self : ∀ (w : List Nat) (t : FastTrie) (id : Nat),
    HasTok (t.insert w id) w := by
  intro w
  induction w with
  | nil =>
      intro t id
      obtain ⟨ch, tid, tok⟩ := t
      simp [FastTrie.insert, HasTok]
  | cons b rest ih =>
      intro t id
      obtain ⟨ch, tid, tok⟩ := t
      simp only [FastTrie.insert, HasTok]
      exact ⟨((ch b).getD FastTrie.empty).insert rest id, by simp, ih _ id⟩

theorem hasTok_insert_preserve : ∀ (w : List Nat) (t : FastTrie)
    (w2 : List Nat) (id : Nat), HasTok t w → HasTok (t.insert w2 id) w := by
  intro w
  induction w with
  | nil =>
      intro t w2 id h
      obtain ⟨ch, tid, tok⟩ := t
      cases w2 with
      | nil => simp [FastTrie.insert, HasTok]
      | cons b2 r2 => simpa [FastTrie.insert, HasTok] using h
  | cons b rest ih =>
      intro t w2 id h
      obtain ⟨ch, tid, tok⟩ := t
      obtain ⟨c, hcb, hc⟩ := h
      cases w2 with
      | nil => exact ⟨c, hcb, hc⟩
      | cons b2 r2 =>
          simp only [FastTrie.insert, HasTok]
          by_cases hb : b = b2
          · subst hb
            refine ⟨((ch b).getD FastTrie.empty).insert r2 id, by rw [if_pos rfl], ?_⟩
            rw [hcb]
            exact ih c r2 id hc
          · exact ⟨c, by rw [if_neg (by omega)]; exact hcb, hc⟩

theorem foldl_insert_hasTok (w : List Nat) : ∀ (ps : List (Nat × List Nat))
    (t : FastTrie), HasTok t w →
    HasTok (ps.foldl (fun t p => t.insert p.2 p.1) t) w := by
  intro ps
  induction ps with
  | nil => intro t h; exact h
  | cons p rest ih =>
      intro t h
      simp only [List.foldl_cons]
      exact ih _ (hasTok_insert_preserve w t p.2 p.1 h)

theorem foldl_insert_mem_hasTok (w : List Nat) : ∀ (ps : List (Nat × List Nat))
    (t : FastTrie), (∃ p ∈ ps, p.2 = w) →
    HasTok (ps.foldl (fun t p => t.insert p.2 p.1) t) w := by
  intro ps
  induction ps with
  | nil => intro t h; obtain ⟨p, hp, _⟩ := h; cases hp
  | cons q rest ih =>
      intro t h
      simp only [List.foldl_cons]
      obtain ⟨p, hp, hpw⟩ := h
      rcases List.mem_cons.1 hp with heq | hmem
      · subst heq
        rw [hpw]
        exact foldl_insert_hasTok w rest _ (hasTok_insert_self w t p.1)
      · exact ih _ ⟨p, hmem, hpw⟩

theorem buildTrie_hasTok (v : Vocab) (w : List Nat)
    (h : ∃ i, i < v.length ∧ v.getD i [] = w) : HasTok (buildTrie v) w := by
  obtain ⟨i, hi, hw⟩ := h
  unfold buildTrie
  refine foldl_insert_mem_hasTok w v.enum FastTrie.empty ⟨(i, v.getD i []), ?_, hw⟩
  exact enum_mem_of_lt v i hi

theorem lmAux_ge : ∀ (text : List Nat) (t : FastTrie) (i bl bi : Nat),
    bl ≤ i → bl ≤ (FastTrie.lmAux text t i bl bi).1 := by
  intro text
  induction text with
  | nil => intro t i bl bi _; exact le_refl _
  | cons b rest ih =>
      intro t i bl bi hbl
      obtain ⟨ch, tid, tok⟩ := t
      simp only [FastTrie.lmAux]
      cases hcb : ch b with
      | none => exact le_refl _
      | some child =>
          obtain ⟨ch2, ctid, ctok⟩ := child
          show bl ≤ (if ctok = true
              then FastTrie.lmAux rest (FastTrie.node ch2 ctid ctok) (i + 1)
                (i + 1) ctid
              else FastTrie.lmAux rest (FastTrie.node ch2 ctid ctok) (i + 1)
                bl bi).1
          by_cases hc : ctok = true
          · rw [if_pos hc]
            have h1 := ih (FastTrie.node ch2 ctid ctok) (i + 1) (i + 1) ctid
              (le_refl _)
            omega
          · rw [if_neg hc]
            exact ih _ (i + 1) bl bi (by omega)

theorem longestMatch_pos (t : FastTrie) (b : Nat) (rest : List Nat)
    (h : HasTok t [b]) : 1 ≤ (t.longestMatch (b :: rest)).1 := by
  obtain ⟨ch, tid, tok⟩ := t
  obtain ⟨t2, hcb, ht2⟩ := h
  obtain ⟨ch2, ctid, ctok⟩ := t2
  have htok : ctok = true := ht2
  unfold FastTrie.longestMatch
  simp only [FastTrie.lmAux, hcb]
  show 1 ≤ (if ctok = true
      then FastTrie.lmAux rest (FastTrie.node ch2 ctid ctok) 1 1 ctid
      else FastTrie.lmAux rest (FastTrie.node ch2 ctid ctok) 1 0 0).1
  rw [if_pos htok]
  exact lmAux_ge rest _ 1 1 ctid (le_refl _)

/-- Invariant of the LongestMatch walk: any non-zero best the walk
reports names a vocabulary token equal to the consumed prefix of the
full input. -/
theorem lmAux_spec (v : Vocab) (full : List Nat) : ∀ (text : List Nat)
    (t : FastTrie) (pre : List Nat) (bl bi : Nat),
    full = pre ++ text → TrieOK v t pre →
    (bl ≠ 0 → bi < v.length ∧ v.getD bi [] = full.take bl) →
    bl ≤ pre.length →
    (FastTrie.lmAux text t pre.length bl bi).1 ≤ full.length ∧
    ((FastTrie.lmAux text t pre.length bl bi).1 ≠ 0 →
      (FastTrie.lmAux text t pre.length bl bi).2 < v.length ∧
      v.getD (FastTrie.lmAux text t pre.length bl bi).2 []
        = full.take (FastTrie.lmAux text t pre.length bl bi).1) := by
  intro text
  induction text with
  | nil =>
      intro t pre bl bi hfull hok hbest hble
      subst hfull
      obtain ⟨ch, tid, tok⟩ := t
      simp only [FastTrie.lmAux]
      exact ⟨by simpa using hble, hbest⟩
  | cons b rest ih =>
      intro t pre bl bi hfull hok hbest hble
      obtain ⟨ch, tid, tok⟩ := hok
      rename_i htok hch
      cases hcb : ch b with
      | none =>
          have hred : FastTrie.lmAux (b :: rest) (FastTrie.node ch tid tok)
              pre.length bl bi = (bl, bi) := by
            simp only [FastTrie.lmAux, hcb]
          rw [hred]
          refine ⟨?_, hbest⟩
          rw [hfull, List.length_append]
          exact le_trans hble (Nat.le_add_right _ _)
      | some child =>
          have hchild := hch b child hcb
          obtain ⟨ch2, ctid, ctok, hceq, hctok, hcch⟩ := hchild
          have hfull2 : full = (pre ++ [b]) ++ rest := by
            rw [hfull]
            simp
          have hlen2 : (pre ++ [b]).length = pre.length + 1 := by simp
          have hred : FastTrie.lmAux (b :: rest) (FastTrie.node ch tid tok)
              pre.length bl bi
              = if ctok = true
                then FastTrie.lmAux rest (FastTrie.node ch2 ctid ctok)
                  (pre.length + 1) (pre.length + 1) ctid
                else FastTrie.lmAux rest (FastTrie.node ch2 ctid ctok)
                  (pre.length + 1) bl bi := by
            simp only [FastTrie.lmAux, hcb]
          rw [hred]
          by_cases hc : ctok = true
          · rw [if_pos hc]
            have hnew : pre.length + 1 ≠ 0 →
                ctid < v.length ∧ v.getD ctid [] = full.take (pre.length + 1) := by
              intro _
              obtain ⟨h1, h2⟩ := hctok hc
              refine ⟨h1, ?_⟩
              rw [h2, hfull2, ← hlen2, List.take_left]
            have hrec := ih (FastTrie.node ch2 ctid ctok) (pre ++ [b])
              (pre.length + 1) ctid hfull2 (TrieOK.mk ch2 ctid ctok _ hctok hcch)
              hnew (by simp)
            rw [hlen2] at hrec
            exact hrec
          · rw [if_neg hc]
            have hrec := ih (FastTrie.node ch2 ctid ctok) (pre ++ [b]) bl bi hfull2
              (TrieOK.mk ch2 ctid ctok _ hctok hcch) hbest (by rw [hlen2]; omega)
            rw [hlen2] at hrec
            exact hrec

theorem decode_go (v : Vocab) : ∀ (ids : List Nat) (acc : List Nat),
    ids.foldl (fun acc id => if id < v.length then acc ++ v.getD id [] else acc) acc
      = acc ++ ids.foldl
          (fun acc id => if id < v.length then acc ++ v.getD id [] else acc) [] := by
  intro ids
  induction ids with
  | nil => intro acc; simp
  | cons id rest ih =>
      intro acc
      simp only [List.foldl_cons]
      by_cases h : id < v.length
      · rw [if_pos h, if_pos h, ih (acc ++ v.getD id []), ih ([] ++ v.getD id [])]
        simp
      · rw [if_neg h, if_neg h, ih acc]

theorem decode_cons (v : Vocab) (id : Nat) (ids : List Nat) :
    decode v (id :: ids)
      = (if id < v.length then v.getD id [] else []) ++ decode v ids := by
  unfold decode
  simp only [List.foldl_cons]
  by_cases h : id < v.length
  · rw [if_pos h, if_pos h, decode_go]
    simp
  · rw [if_neg h, if_neg h]
    simp

theorem encodeDecode_aux (v : Vocab)
    (hcover : ∀ b, b < 256 → ∃ i, i < v.length ∧ v.getD i [] = [b]) :
    ∀ (n : Nat) (x : List Nat), x.length ≤ n → (∀ b ∈ x, b < 256) →
    decode v (encode (mkEncoder v) x) = x := by
  intro n
  induction n with
  | zero =>
      intro x hlen _
      have : x = [] := List.length_eq_zero.1 (by omega)
      subst this
      simp only [encode]
      rfl
  | succ m ih =>
      intro x hlen hbytes
      cases x with
      | nil =>
          simp only [encode]
          rfl
      | cons b rest =>
          have hb : b < 256 := hbytes b (by simp)
          have hpos : 1 ≤ ((mkEncoder v).trie.longestMatch (b :: rest)).1 :=
            longestMatch_pos _ b rest (buildTrie_hasTok v [b] (hcover b hb))
          have hspec := lmAux_spec v (b :: rest) (b :: rest) (buildTrie v) [] 0 0
            rfl (buildTrie_ok v) (by intro h; exact absurd rfl h) (by omega)
          simp only [List.nil_append, List.length_nil] at hspec
          have hlm : (mkEncoder v).trie.longestMatch (b :: rest)
              = FastTrie.lmAux (b :: rest) (buildTrie v) 0 0 0 := rfl
          rw [encode]
          rw [if_neg (by omega)]
          set m2 := (mkEncoder v).trie.longestMatch (b :: rest) with hm2
          obtain ⟨hle, hval⟩ := hspec
          rw [← hlm] at hle hval
          obtain ⟨hid, htok⟩ := hval (by omega)
          rw [decode_cons, if_pos hid, htok]
          have hdroplen : ((b :: rest).drop m2.1).length ≤ m := by
            simp only [List.length_drop, List.length_cons] at *
            omega
          rw [ih ((b :: rest).drop m2.1) hdroplen
            (fun y hy => hbytes y (List.mem_of_mem_drop hy))]
          exact List.take_append_drop m2.1 (b :: rest)

theorem coverAllBytes : ∀ b : Nat, b < 256 →
    ∃ i, i < ((List.range 256).map (fun b => [b])).length ∧
      ((List.range 256).map (fun b => [b])).getD i [] = [b] := by
  intro b hb
  refine ⟨b, ?_, ?_⟩
  · simp [hb]
  · rw [List.getD_eq_getElem _ _ (by simp [hb])]
    simp

end bpe

namespace compress


theorem wlh_sig (name : List Nat) (m f dt dd c cs us : Nat) (e T : List Nat) :
    readU32LE (writeLocalHeader name m f dt dd c cs us e ++ T) 0
      = sigLocalFile := by
  have h : readU32LE (writeLocalHeader name m f dt dd c cs us e ++ T) 0
      = 80 + 256 * 75 + 65536 * 3 + 16777216 * 4 := rfl
  rw [h]
  decide

theorem wlh_flags (name : List Nat) (m f dt dd c cs us : Nat) (e T : List Nat) :
    readU16LE (writeLocalHeader name m f dt dd c cs us e ++ T) 6
      = f % 65536 := by
  have h : readU16LE (writeLocalHeader name m f dt dd c cs us e ++ T) 6
      = f % 256 + 256 * (f / 256 % 256) := rfl
  rw [h]
  omega

theorem wlh_method (name : List Nat) (m f dt dd c cs us : Nat)
    (e T : List Nat) :
    readU16LE (writeLocalHeader name m f dt dd c cs us e ++ T) 8
      = m % 65536 := by
  have h : readU16LE (writeLocalHeader name m f dt dd c cs us e ++ T) 8
      = m % 256 + 256 * (m / 256 % 256) := rfl
  rw [h]
  omega

theorem wlh_crc (name : List Nat) (m f dt dd c cs us : Nat) (e T : List Nat) :
    readU32LE (writeLocalHeader name m f dt dd c cs us e ++ T) 14
      = c % 4294967296 := by
  have h : readU32LE (writeLocalHeader name m f dt dd c cs us e ++ T) 14
      = c % 256 + 256 * (c / 256 % 256) + 65536 * (c / 65536 % 256) +
        16777216 * (c / 16777216 % 256) := rfl
  rw [h]
  omega

theorem wlh_compSize (name : List Nat) (m f dt dd c cs us : Nat)
    (e T : List Nat) :
    readU32LE (writeLocalHeader name m f dt dd c cs us e ++ T) 18
      = cs % 4294967296 := by
  have h : readU32LE (writeLocalHeader name m f dt dd c cs us e ++ T) 18
      = cs % 256 + 256 * (cs / 256 % 256) + 65536 * (cs / 65536 % 256) +
        16777216 * (cs / 16777216 % 256) := rfl
  rw [h]
  omega

theorem wlh_uncompSize (name : List Nat) (m f dt dd c cs us : Nat)
    (e T : List Nat) :
    readU32LE (writeLocalHeader name m f dt dd c cs us e ++ T) 22
      = us % 4294967296 := by
  have h : readU32LE (writeLocalHeader name m f dt dd c cs us e ++ T) 22
      = us % 256 + 256 * (us / 256 % 256) + 65536 * (us / 65536 % 256) +
        16777216 * (us / 16777216 % 256) := rfl
  rw [h]
  omega

theorem wlh_nameLen (name : List Nat) (m f dt dd c cs us : Nat)
    (e T : List Nat) :
    readU16LE (writeLocalHeader name m f dt dd c cs us e ++ T) 26
      = name.length % 65536 := by
  have h : readU16LE (writeLocalHeader name m f dt dd c cs us e ++ T) 26
      = name.length % 256 + 256 * (name.length / 256 % 256) := rfl
  rw [h]
  omega

theorem wlh_extraLen (name : List Nat) (m f dt dd c cs us : Nat)
    (e T : List Nat) :
    readU16LE (writeLocalHeader name m f dt dd c cs us e ++ T) 28
      = e.length % 65536 := by
  have h : readU16LE (writeLocalHeader name m f dt dd c cs us e ++ T) 28
      = e.length % 256 + 256 * (e.length / 256 % 256) := rfl
  rw [h]
  omega

theorem wcd_flags (name : List Nat) (m f dt dd c cs us lo ea : Nat)
    (e T : List Nat) :
    readU16LE (writeCentralDir name m f dt dd c cs us lo ea e ++ T) 8
      = f % 65536 := by
  have h : readU16LE (writeCentralDir name m f dt dd c cs us lo ea e ++ T) 8
      = f % 256 + 256 * (f / 256 % 256) := rfl
  rw [h]
  omega

theorem wlh_length (name : List Nat) (m f dt dd c cs us : Nat)
    (e : List Nat) :
    (writeLocalHeader name m f dt dd c cs us e).length
      = 30 + name.length + e.length := by
  simp [writeLocalHeader, putU16LE, putU32LE]
  omega

theorem wcd_length (name : List Nat) (m f dt dd c cs us lo ea : Nat)
    (e : List Nat) :
    (writeCentralDir name m f dt dd c cs us lo ea e).length
      = 46 + name.length + e.length := by
  simp [writeCentralDir, putU16LE, putU32LE]
  omega

theorem weocd_length (n s o : Nat) :
    (writeEndCentralDir n s o).length = 22 := rfl

theorem extTS_length (t : Time) (lcl : Bool) :
    (makeExtendedTimestamp t lcl).length = if t.isZero then 0 else 9 := by
  unfold makeExtendedTimestamp
  by_cases h : t.isZero
  · rw [if_pos h, if_pos h]
    rfl
  · rw [if_neg h, if_neg h]
    rfl

theorem wlh_slice (name : List Nat) (m f dt dd c cs us : Nat)
    (e T : List Nat) :
    (writeLocalHeader name m f dt dd c cs us e ++ T).drop
      (30 + name.length + e.length) = T := by
  rw [show 30 + name.length + e.length
      = (writeLocalHeader name m f dt dd c cs us e).length from by
        rw [wlh_length]]
  exact List.drop_left _ _


theorem hasNonASCII_iff (name : List Nat) :
    hasNonASCII name = true ↔ ∃ b ∈ name, 127 < b := by
  unfold hasNonASCII
  simp [List.any_eq_true]

theorem zipFlags_cases (name : List Nat) :
    zipFlags name = flagUTF8 ∨ zipFlags name = 0 := by
  unfold zipFlags
  by_cases h : hasNonASCII name
  · exact Or.inl (if_pos h)
  · exact Or.inr (if_neg h)

theorem utf8Flag_demo :
    (createZIP demoCompressor [65] [127] Time.zero ⟨420, false, false⟩
        MethodStore).map (fun a => readU16LE a 6) = some 0 := rfl

theorem archiveLoop_fst_len : ∀ (es : List ArchiveEntry) (buf cd : List Nat),
    buf.length ≤ (archiveLoop es buf cd).1.length := by
  intro es
  induction es with
  | nil => intro buf cd; exact le_refl _
  | cons e rest ih =>
      intro buf cd
      simp only [archiveLoop]
      refine le_trans ?_ (ih _ _)
      rw [List.length_append, List.length_append]
      omega

theorem archiveLoop_fst_getD : ∀ (es : List ArchiveEntry) (buf cd : List Nat)
    (k : Nat), k < buf.length →
    (archiveLoop es buf cd).1.getD k 0 = buf.getD k 0 := by
  intro es
  induction es with
  | nil => intro buf cd k _; rfl
  | cons e rest ih =>
      intro buf cd k hk
      simp only [archiveLoop]
      rw [ih _ _ k (by rw [List.length_append, List.length_append]; omega)]
      rw [List.getD_append _ _ _ _ (by rw [List.length_append]; omega),
        List.getD_append _ _ _ _ hk]


theorem wlh_b0 (name : List Nat) (m f dt dd c cs us : Nat) (e : List Nat) :
    (writeLocalHeader name m f dt dd c cs us e).getD 0 0 = 80 := rfl

theorem wlh_b1 (name : List Nat) (m f dt dd c cs us : Nat) (e : List Nat) :
    (writeLocalHeader name m f dt dd c cs us e).getD 1 0 = 75 := rfl

theorem wlh_b2 (name : List Nat) (m f dt dd c cs us : Nat) (e : List Nat) :
    (writeLocalHeader name m f dt dd c cs us e).getD 2 0 = 3 := rfl

theorem wlh_b3 (name : List Nat) (m f dt dd c cs us : Nat) (e : List Nat) :
    (writeLocalHeader name m f dt dd c cs us e).getD 3 0 = 4 := rfl

theorem archiveBytes_getD (e : ArchiveEntry) (rest : List ArchiveEntry)
    (k : Nat) (hk : k < 30) :
    (archiveBytes (e :: rest)).getD k 0
      = (writeLocalHeader e.name e.method (zipFlags e.name)
          (timeToDOS e.modTime).1 (timeToDOS e.modTime).2 e.crc
          e.compressed.length e.data.length
          (entryExtra e.modTime true e.method e.vocabInfo)).getD k 0 := by
  have hwl : 30 ≤ (writeLocalHeader e.name e.method (zipFlags e.name)
      (timeToDOS e.modTime).1 (timeToDOS e.modTime).2 e.crc
      e.compressed.length e.data.length
      (entryExtra e.modTime true e.method e.vocabInfo)).length := by
    rw [wlh_length]
    omega
  unfold archiveBytes
  simp only [archiveLoop, List.nil_append]
  have hlen1 : k < ((archiveLoop rest (writeLocalHeader e.name e.method
      (zipFlags e.name) (timeToDOS e.modTime).1 (timeToDOS e.modTime).2 e.crc
      e.compressed.length e.data.length
      (entryExtra e.modTime true e.method e.vocabInfo) ++ e.compressed)
      (writeCentralDir e.name e.method (zipFlags e.name)
        (timeToDOS e.modTime).1 (timeToDOS e.modTime).2 e.crc
        e.compressed.length e.data.length (List.length ([] : List Nat))
        (goModeToUnix e.mode <<< 16)
        (entryExtra e.modTime false e.method e.vocabInfo))).1).length := by
    refine lt_of_lt_of_le ?_ (archiveLoop_fst_len _ _ _)
    rw [List.length_append]
    omega
  rw [List.getD_append _ _ _ _ (by rw [List.length_append] at *; omega)]
  rw [List.getD_append _ _ _ _ hlen1]
  rw [archiveLoop_fst_getD _ _ _ k (by rw [List.length_append]; omega)]
  rw [List.getD_append _ _ _ _ (by omega)]

theorem archiveBytes_len (e : ArchiveEntry) (rest : List ArchiveEntry) :
    30 ≤ (archiveBytes (e :: rest)).length := by
  unfold archiveBytes
  simp only [archiveLoop, List.nil_append]
  rw [List.length_append, List.length_append]
  have h := archiveLoop_fst_len rest (writeLocalHeader e.name e.method
      (zipFlags e.name) (timeToDOS e.modTime).1 (timeToDOS e.modTime).2 e.crc
      e.compressed.length e.data.length
      (entryExtra e.modTime true e.method e.vocabInfo) ++ e.compressed)
      (writeCentralDir e.name e.method (zipFlags e.name)
        (timeToDOS e.modTime).1 (timeToDOS e.modTime).2 e.crc
        e.compressed.length e.data.length (List.length ([] : List Nat))
        (goModeToUnix e.mode <<< 16)
        (entryExtra e.modTime false e.method e.vocabInfo))
  rw [List.length_append, wlh_length] at h
  omega


/-- C9 (amended): for every non-empty entry sequence, the bytes the
archive builder emits satisfy IsValidFormat; the empty sequence gives
the bare 22-byte end-of-central-directory record, which does not. -/
theorem archiveBytesValid (entries : List ArchiveEntry) (h : entries ≠ []) :
    IsValidFormat (archiveBytes entries) = true := by
  obtain ⟨e, rest, rfl⟩ := List.exists_cons_of_ne_nil h
  have h0 := archiveBytes_getD e rest 0 (by omega)
  have h1 := archiveBytes_getD e rest 1 (by omega)
  have h2 := archiveBytes_getD e rest 2 (by omega)
  have h3 := archiveBytes_getD e rest 3 (by omega)
  rw [wlh_b0] at h0
  rw [wlh_b1] at h1
  rw [wlh_b2] at h2
  rw [wlh_b3] at h3
  have hr : readU32LE (archiveBytes (e :: rest)) 0
      = (archiveBytes (e :: rest)).getD 0 0 +
        256 * (archiveBytes (e :: rest)).getD 1 0 +
        65536 * (archiveBytes (e :: rest)).getD 2 0 +
        16777216 * (archiveBytes (e :: rest)).getD 3 0 := rfl
  have hsig : readU32LE (archiveBytes (e :: rest)) 0 = sigLocalFile := by
    rw [hr, h0, h1, h2, h3]
    decide
  have hlen := archiveBytes_len e rest
  unfold IsValidFormat
  rw [if_neg (by omega)]
  rw [hsig]
  simp

theorem archiveBytesValid_witness :
    IsValidFormat (archiveBytes [⟨[97], [65], [65], 0, 0, Time.zero,
      ⟨420, false, false⟩, VocabInfo.empty⟩]) = true :=
  archiveBytesValid _ (List.cons_ne_nil _ _)

/-- C9 counterexample: the archive of no entries is the 22-byte EOCD
record alone, and IsValidFormat rejects it (it is shorter than a local
header). -/
theorem emptyArchiveInvalid :
    IsValidFormat (archiveBytes []) = false ∧ archiveBytes [] ≠ [] := by
  exact ⟨rfl, by decide⟩

/-- C8 (amended): the general-purpose flags word every local file header
and central-directory entry carries is the one zipFlags computes: zero,
with bit 11 (0x0800) set exactly when the name holds a byte above 0x7F —
not above 0x7E as the spec words it. -/
theorem zipFlagsSpec (name : List Nat) (m dt dd c cs us lo ea : Nat)
    (e T : List Nat) :
    readU16LE (writeLocalHeader name m (zipFlags name) dt dd c cs us e ++ T) 6
      = zipFlags name ∧
    readU16LE (writeCentralDir name m (zipFlags name) dt dd c cs us lo ea e
        ++ T) 8 = zipFlags name ∧
    (zipFlags name = flagUTF8 ∨ zipFlags name = 0) ∧
    (zipFlags name = flagUTF8 ↔ ∃ b ∈ name, 127 < b) := by
  have hmod : zipFlags name % 65536 = zipFlags name := by
    rcases zipFlags_cases name with h | h <;> rw [h] <;> rfl
  refine ⟨by rw [wlh_flags, hmod], by rw [wcd_flags, hmod],
    zipFlags_cases name, ?_⟩
  unfold zipFlags
  by_cases h : hasNonASCII name = true
  · rw [if_pos h]
    exact ⟨fun _ => (hasNonASCII_iff name).1 h, fun _ => rfl⟩
  · rw [if_neg h]
    constructor
    · intro h0
      exact absurd h0 (by decide)
    · intro hex
      exact absurd ((hasNonASCII_iff name).2 hex) h

/-- C8 counterexample: for the name consisting of the single byte 0x7F
(which is above 0x7E) the archiver writes flags 0 — hasNonASCII only
fires above 127. -/
theorem utf8FlagBoundary :
    (createZIP demoCompressor [65] [127] Time.zero ⟨420, false, false⟩
        MethodStore).map (fun a => readU16LE a 6) = some 0 ∧
    hasNonASCII [127] = false ∧ (126 : Nat) < 127 :=
  ⟨rfl, by decide, by decide⟩


theorem extTS_le9 (t : Time) (lcl : Bool) :
    (makeExtendedTimestamp t lcl).length ≤ 9 := by
  rw [extTS_length]
  by_cases h : t.isZero
  · rw [if_pos h]
    omega
  · rw [if_neg h]

theorem decompress_store_general (c : Compressor) (name e data TAIL : List Nat)
    (f dt dd crcVal : Nat)
    (hn : name.length < 65536) (he : e.length < 65536)
    (hd : data.length < 4294967296) :
    Decompress c (writeLocalHeader name MethodStore f dt dd crcVal
      data.length data.length e ++ (data ++ TAIL)) = some data := by
  set A := writeLocalHeader name MethodStore f dt dd crcVal data.length
    data.length e ++ (data ++ TAIL) with hA
  have hsig : readU32LE A 0 = sigLocalFile := by
    rw [hA]
    exact wlh_sig name MethodStore f dt dd crcVal data.length data.length e
      (data ++ TAIL)
  have hnl : readU16LE A 26 = name.length := by
    rw [hA, wlh_nameLen]
    exact Nat.mod_eq_of_lt hn
  have hel : readU16LE A 28 = e.length := by
    rw [hA, wlh_extraLen]
    exact Nat.mod_eq_of_lt he
  have hcs : readU32LE A 18 = data.length := by
    rw [hA, wlh_compSize]
    exact Nat.mod_eq_of_lt hd
  have hmz : readU16LE A 8 = MethodStore := by
    rw [hA, wlh_method]
    decide
  have hlen : A.length = 30 + name.length + e.length +
      (data.length + TAIL.length) := by
    rw [hA, List.length_append, List.length_append, wlh_length]
  have hdrop : A.drop (30 + name.length + e.length) = data ++ TAIL := by
    rw [hA]
    exact wlh_slice name MethodStore f dt dd crcVal data.length data.length e
      (data ++ TAIL)
  unfold Decompress GetFileInfo
  rw [if_neg (by omega)]
  rw [if_neg (by rw [hsig]; simp)]
  rw [if_neg (by rw [hnl, hel]; omega)]
  rw [Option.some_bind]
  simp only [hnl, hel, hcs, hmz]
  rw [if_neg (by omega)]
  rw [hdrop, List.take_left]
  rw [if_neg (by decide), if_neg (by decide), if_neg (by decide)]
  rw [if_pos trivial]


theorem createZIP_store_eq (c : Compressor) (data name : List Nat) (t : Time)
    (mode : FileMode) (hd : data.length < 4294967296) :
    createZIP c data name t mode MethodStore
      = some (storeArchiveWithCRC name data t mode (crc32 data)) := by
  unfold createZIP storeArchiveWithCRC
  rw [if_neg (by omega)]
  rw [if_neg (by decide), if_neg (by decide), if_neg (by decide),
    if_pos rfl]
  rw [Option.some_bind]
  rw [if_neg (by omega)]

/-- C3 (amended): createZIP stores crc32(data) in the header, and
extraction of a Store entry returns the payload for EVERY value of the
stored CRC word — Decompress never verifies it, so a mismatch is not
reported as Corrupted. -/
theorem storeCrcUncheckedRoundtrip (c : Compressor) (name data : List Nat)
    (t : Time) (mode : FileMode)
    (hn : name.length < 65536) (hd : data.length < 4294967296) :
    (∀ crcVal, Decompress c (storeArchiveWithCRC name data t mode crcVal)
      = some data) ∧
    createZIP c data name t mode MethodStore
      = some (storeArchiveWithCRC name data t mode (crc32 data)) ∧
    readU32LE (storeArchiveWithCRC name data t mode (crc32 data)) 14
      = crc32 data % 4294967296 := by
  refine ⟨?_, createZIP_store_eq c data name t mode hd, ?_⟩
  · intro crcVal
    unfold storeArchiveWithCRC
    simp only [List.append_assoc]
    exact decompress_store_general c name (makeExtendedTimestamp t true) data
      _ (zipFlags name) (timeToDOS t).1 (timeToDOS t).2 crcVal hn
      (by have := extTS_le9 t true; omega) hd
  · unfold storeArchiveWithCRC
    simp only [List.append_assoc]
    exact wlh_crc name MethodStore (zipFlags name) (timeToDOS t).1
      (timeToDOS t).2 (crc32 data) data.length data.length
      (makeExtendedTimestamp t true) _

theorem storeCrcUnchecked_witness :
    (∀ crcVal, Decompress demoCompressor (storeArchiveWithCRC [97] [65]
        Time.zero ⟨420, false, false⟩ crcVal) = some [65]) ∧
    createZIP demoCompressor [65] [97] Time.zero ⟨420, false, false⟩
        MethodStore = some (storeArchiveWithCRC [97] [65] Time.zero
        ⟨420, false, false⟩ (crc32 [65])) ∧
    readU32LE (storeArchiveWithCRC [97] [65] Time.zero ⟨420, false, false⟩
        (crc32 [65])) 14 = crc32 [65] % 4294967296 :=
  storeCrcUncheckedRoundtrip demoCompressor [97] [65] Time.zero
    ⟨420, false, false⟩ (by decide) (by decide)

/-- C3 counterexample: a Store archive whose CRC field holds 0 — not
crc32([65]) — still extracts successfully to its payload. -/
theorem crcNotChecked :
    Decompress demoCompressor (storeArchiveWithCRC [97] [65] Time.zero
      ⟨420, false, false⟩ 0) = some [65] ∧
    crc32 [65] ≠ readU32LE (storeArchiveWithCRC [97] [65] Time.zero
      ⟨420, false, false⟩ 0) 14 :=
  ⟨rfl, by decide⟩


theorem parseVocabAux_fuel : ∀ (f1 : Nat) (l : List Nat) (f2 : Nat),
    l.length ≤ f1 → l.length ≤ f2 →
    parseVocabInfoAux f1 l = parseVocabInfoAux f2 l := by
  intro f1
  induction f1 using Nat.strong_induction_on with
  | _ f1 ih =>
    intro l f2 h1 h2
    match f1, f2 with
    | 0, 0 => rfl
    | 0, g + 1 =>
        have hl : l = [] := List.length_eq_zero.1 (by omega)
        subst hl
        simp [parseVocabInfoAux]
    | g + 1, 0 =>
        have hl : l = [] := List.length_eq_zero.1 (by omega)
        subst hl
        simp [parseVocabInfoAux]
    | a + 1, b + 1 =>
        simp only [parseVocabInfoAux]
        by_cases hlen : l.length < 4
        · rw [if_pos hlen, if_pos hlen]
        · rw [if_neg hlen, if_neg hlen]
          by_cases hsz : l.length < 4 + readU16LE l 2
          · rw [if_pos hsz, if_pos hsz]
          · rw [if_neg hsz, if_neg hsz]
            by_cases hc1 : readU16LE l 0 = extraVocabInfo ∧ 4 ≤ readU16LE l 2
            · rw [if_pos hc1, if_pos hc1]
            · rw [if_neg hc1, if_neg hc1]
              by_cases hc2 : readU16LE l 0 = extraVocabInfo ∧
                  1 ≤ readU16LE l 2
              · rw [if_pos hc2, if_pos hc2]
              · rw [if_neg hc2, if_neg hc2]
                have hd1 : (l.drop (4 + readU16LE l 2)).length ≤ a := by
                  rw [List.length_drop]
                  omega
                have hd2 : (l.drop (4 + readU16LE l 2)).length ≤ b := by
                  rw [List.length_drop]
                  omega
                exact ih a (by omega) _ b hd1 hd2

theorem parseVocab_makeVocab (vi : VocabInfo) :
    parseVocabInfo (makeVocabInfo vi)
      = some ⟨vi.natLang % 256, vi.progLang % 256, vi.dataFmt % 256,
          vi.markup % 256⟩ := by
  unfold parseVocabInfo makeVocabInfo
  have h0 : readU16LE [78, 85, 4, 0, vi.natLang % 256, vi.progLang % 256,
      vi.dataFmt % 256, vi.markup % 256] 0 = 21838 := rfl
  have h2 : readU16LE [78, 85, 4, 0, vi.natLang % 256, vi.progLang % 256,
      vi.dataFmt % 256, vi.markup % 256] 2 = 4 := rfl
  rw [show ([78, 85, 4, 0, vi.natLang % 256, vi.progLang % 256,
      vi.dataFmt % 256, vi.markup % 256] : List Nat).length = 7 + 1 from rfl]
  simp only [parseVocabInfoAux]
  rw [if_neg (by rw [show ([78, 85, 4, 0, vi.natLang % 256,
      vi.progLang % 256, vi.dataFmt % 256, vi.markup % 256] :
      List Nat).length = 8 from rfl]; omega)]
  rw [if_neg (by rw [show ([78, 85, 4, 0, vi.natLang % 256,
      vi.progLang % 256, vi.dataFmt % 256, vi.markup % 256] :
      List Nat).length = 8 from rfl, h2]; omega)]
  rw [if_pos ⟨by rw [h0]; decide, by rw [h2]⟩]
  rfl

theorem parseVocab_nil : parseVocabInfo ([] : List Nat) = none := rfl

theorem parseVocab_ts_step (u : Nat) (rest : List Nat) :
    parseVocabInfo ([85, 84, 5, 0, 1, u % 256, u / 256 % 256,
      u / 65536 % 256, u / 16777216 % 256] ++ rest)
      = parseVocabInfo rest := by
  unfold parseVocabInfo
  have hL : ([85, 84, 5, 0, 1, u % 256, u / 256 % 256, u / 65536 % 256,
      u / 16777216 % 256] ++ rest).length = 9 + rest.length := by
    simp
    omega
  have h0 : readU16LE ([85, 84, 5, 0, 1, u % 256, u / 256 % 256,
      u / 65536 % 256, u / 16777216 % 256] ++ rest) 0 = 21589 := rfl
  have h2 : readU16LE ([85, 84, 5, 0, 1, u % 256, u / 256 % 256,
      u / 65536 % 256, u / 16777216 % 256] ++ rest) 2 = 5 := rfl
  have hid : readU16LE ([85, 84, 5, 0, 1, u % 256, u / 256 % 256,
      u / 65536 % 256, u / 16777216 % 256] ++ rest) 0 ≠ extraVocabInfo := by
    rw [h0]
    decide
  rw [hL]
  rw [show (9 : Nat) + rest.length = (8 + rest.length) + 1 from by omega]
  simp only [parseVocabInfoAux]
  rw [if_neg (by rw [hL]; omega)]
  rw [if_neg (by rw [hL, h2]; omega)]
  rw [if_neg (fun hc => hid hc.1)]
  rw [if_neg (fun hc => hid hc.1)]
  simp only [h2]
  have hdrop : ([85, 84, 5, 0, 1, u % 256, u / 256 % 256, u / 65536 % 256,
      u / 16777216 % 256] ++ rest).drop (4 + 5) = rest := rfl
  rw [hdrop]
  exact parseVocabAux_fuel (8 + rest.length) rest rest.length (by omega)
    (le_refl _)

/-- C4 (amended): the extra fields attached to an entry parse back to
the vocabulary info exactly when the method is Bpelate (86); for every
other method — Unzlate 85 included, contrary to the claim — the 0x554E
field is absent.  The same entryExtra feeds the local header and the
central directory (lcl selects the variant). -/
theorem vocabExtraIffBpelate (t : Time) (lcl : Bool) (vi : VocabInfo)
    (m : Nat) :
    parseVocabInfo (entryExtra t lcl m vi)
      = if m = MethodBPELATE
        then some ⟨vi.natLang % 256, vi.progLang % 256, vi.dataFmt % 256,
          vi.markup % 256⟩
        else none := by
  unfold entryExtra makeExtendedTimestamp
  by_cases hz : t.isZero = true
  · rw [if_pos hz, List.nil_append]
    by_cases hm : m = MethodBPELATE
    · rw [if_pos hm, if_pos hm]
      exact parseVocab_makeVocab vi
    · rw [if_neg hm, if_neg hm]
      exact parseVocab_nil
  · rw [if_neg hz, parseVocab_ts_step]
    by_cases hm : m = MethodBPELATE
    · rw [if_pos hm, if_pos hm]
      exact parseVocab_makeVocab vi
    · rw [if_neg hm, if_neg hm]
      exact parseVocab_nil

/-- C4 counterexample: a method-85 (Unzlate) entry written by the
archiver with a non-zero vocabulary info still parses back with the
default (empty) vocabulary info — no 0x554E extra field is written. -/
theorem vocabExtraMissingForUnzlate :
    (createZIPWithCompressedAndLang [103, 111] [9, 9] [97]
        ⟨false, 1000, 3, 4⟩ ⟨420, false, false⟩ MethodUNZLATE
        ⟨1, 1, 0, 0⟩).map
      (fun a => (GetFileInfo a).map (fun fi => (fi.method, fi.vocab)))
      = some (some (85, VocabInfo.empty)) := rfl


set_option maxRecDepth 4000 in
theorem lmDemo :
    bpe.FastTrie.lmAux [103, 111] (bpe.buildTrie vGoDemo) 0 0 0
      = (2, 256) := rfl

set_option maxRecDepth 4000 in
theorem encDemo : bpe.encode (bpe.mkEncoder vGoDemo) [103, 111] = [256] := by
  have hlm : (bpe.mkEncoder vGoDemo).trie.longestMatch (103 :: [111])
      = (2, 256) := lmDemo
  rw [bpe.encode]
  rw [if_neg (by rw [hlm]; decide)]
  rw [hlm]
  show (256 : Nat) :: bpe.encode (bpe.mkEncoder vGoDemo) [] = [256]
  simp only [bpe.encode]

set_option maxRecDepth 10000 in
/-- C1 (code bug): decompressUNZLATE always decodes with the default
text encoder, but compressCode may pick method 85 with a language
encoder; over the demo vocabularies (text = 256 single-byte tokens, Go =
text plus the merged token "go") the bytes of "go" compress through the
Go encoder and extract to the empty sequence, not the input. -/
theorem unzlateVocabMismatch :
    decompressUNZLATE demoCompressor
        (compressUNZLATEWith vGoDemo [103, 111]) = some [] ∧
      ([] : List Nat) ≠ [103, 111] := by
  constructor
  · unfold compressUNZLATEWith
    rw [encDemo]
    rw [if_neg (by decide)]
    have hv : encodeVarints [256] = [128, 2] := rfl
    rw [hv]
    unfold decompressUNZLATE
    rw [ans.ans_roundtrip [128, 2] (by decide) (by decide)]
    have hde : bpe.decode demoCompressor.vocab (decodeVarints [128, 2])
        = [] := rfl
    rw [Option.map_some', hde]
  · decide


end compress

/-- C5 counterexample: for the (2^32)-byte input of zeros the 32-bit
length header of ans.Compress wraps to zero, so ans.Decompress returns
the empty sequence instead of the input. -/
theorem ansRoundtrip_fails_4GiB :
    ans.Decompress (ans.Compress (List.replicate 4294967296 0)) = some [] ∧
      List.replicate 4294967296 0 ≠ ([] : List Nat) := by
  constructor
  · have hxlen : (List.replicate 4294967296 (0 : Nat)).length = 4294967296 := by
      rw [List.length_replicate]
    rw [ans.Compress_eq _ (by omega)]
    unfold ans.Decompress
    rw [if_neg (by
      rw [List.length_append, List.length_append]
      have h4 : (putU32LE (List.replicate 4294967296 (0 : Nat)).length).length = 4 :=
        rfl
      omega)]
    rw [List.append_assoc, ans.readU32_putU32, hxlen]
    rw [if_pos (by omega)]
  · intro h
    have := congrArg List.length h
    rw [List.length_replicate] at this
    simp at this

/-- C5 (amended): for every byte sequence shorter than `2^32` bytes,
ans.Decompress inverts ans.Compress exactly, the empty sequence
included. -/
theorem ansRoundtrip (data : List Nat) (hbytes : ∀ b ∈ data, b < 256)
    (hlen : data.length < 4294967296) :
    ans.Decompress (ans.Compress data) = some data :=
  ans.ans_roundtrip data hbytes hlen

theorem ansRoundtrip_witness :
    ans.Decompress (ans.Compress [104, 105]) = some [104, 105] :=
  ansRoundtrip [104, 105] (by decide) (by decide)

/-- C6: for every byte sequence x and every vocabulary that contains all
256 single-byte tokens, bpe.decode applied to the ids produced by the
greedy longest-match bpe.encode returns exactly x. -/
theorem bpeRoundtrip (v : bpe.Vocab) (x : List Nat)
    (hx : ∀ b ∈ x, b < 256)
    (hcover : ∀ b, b < 256 → ∃ i, i < v.length ∧ v.getD i [] = [b]) :
    bpe.decode v (bpe.encode (bpe.mkEncoder v) x) = x :=
  bpe.encodeDecode_aux v hcover x.length x (le_refl _) hx

theorem bpeRoundtrip_witness :
    bpe.decode ((List.range 256).map (fun b => [b]))
      (bpe.encode (bpe.mkEncoder ((List.range 256).map (fun b => [b])))
        [104, 105]) = [104, 105] :=
  bpeRoundtrip ((List.range 256).map (fun b => [b])) [104, 105]
    (by decide) bpe.coverAllBytes

/-- C7: for every vector of 256 counts, BuildTable gives every symbol
with a non-zero count a frequency of at least 1, makes the 256
frequencies sum to exactly 16384 with every symbol range inside the
lookup array, and gives symbol 0 all 16384 when every count is zero. -/
theorem buildTable_invariants (counts : List Nat) (h256 : counts.length = 256) :
    (∀ i, i < 256 → counts.getD i 0 ≠ 0 → 1 ≤ (ans.BuildTable counts).freq i) ∧
    (ans.BuildTable counts).freqs.sum = 16384 ∧
    (∀ s, s < 256 →
      (ans.BuildTable counts).cum s + (ans.BuildTable counts).freq s ≤ 16384) ∧
    (counts.sum = 0 → (ans.BuildTable counts).freq 0 = 16384) := by
  by_cases hT : counts.sum = 0
  · have hfr : (ans.BuildTable counts).freqs
        = ans.ProbScale :: List.replicate 255 0 := by
      unfold ans.BuildTable
      rw [if_pos hT]
    have hcu : (ans.BuildTable counts).cums = List.replicate 256 0 := by
      unfold ans.BuildTable
      rw [if_pos hT]
    refine ⟨?_, ?_, ?_, ?_⟩
    · intro i hi hc
      exfalso
      have hmem : counts.getD i 0 ∈ counts := by
        rw [List.getD_eq_getElem counts 0 (by omega)]
        exact List.getElem_mem _
      have := ans.mem_le_sum hmem
      omega
    · rw [hfr]
      simp only [List.sum_cons, List.sum_replicate, smul_eq_mul, Nat.mul_zero]
      rfl
    · intro s _
      rw [ans.SymbolTable.cum, ans.SymbolTable.freq, hfr, hcu,
        ans.getD_replicate_zero]
      cases s with
      | zero =>
          rw [List.getD_cons_zero]
          have hps : ans.ProbScale = 16384 := rfl
          omega
      | succ t =>
          rw [List.getD_cons_succ, ans.getD_replicate_zero]
          omega
    · intro _
      rw [ans.SymbolTable.freq, hfr]
      rfl
  · have hps : ans.ProbScale = 16384 := rfl
    refine ⟨?_, ?_, ?_, ?_⟩
    · intro i hi hc
      rw [ans.BuildTable_freq_eq counts hT i]
      exact ans.normAdjust_pos counts (by omega) hT i hc
    · rw [ans.BuildTable_freqs counts hT, ans.normAdjust_sum counts (by omega) hT]
      exact hps
    · intro s hs
      have := ans.BuildTable_cum_add_freq_le counts h256 (by omega) hT s hs
      omega
    · intro h
      exact absurd h hT

set_option maxRecDepth 4000 in
theorem buildTable_invariants_witness :
    (∀ i, i < 256 → (3 :: 1 :: List.replicate 254 0).getD i 0 ≠ 0 →
      1 ≤ (ans.BuildTable (3 :: 1 :: List.replicate 254 0)).freq i) ∧
    (ans.BuildTable (3 :: 1 :: List.replicate 254 0)).freqs.sum = 16384 ∧
    (∀ s, s < 256 →
      (ans.BuildTable (3 :: 1 :: List.replicate 254 0)).cum s +
        (ans.BuildTable (3 :: 1 :: List.replicate 254 0)).freq s ≤ 16384) ∧
    ((3 :: 1 :: List.replicate 254 0).sum = 0 →
      (ans.BuildTable (3 :: 1 :: List.replicate 254 0)).freq 0 = 16384) :=
  buildTable_invariants (3 :: 1 :: List.replicate 254 0) (by simp)

/-- C10: ans.Decompress is total on arbitrary input: it returns an error
or a byte sequence whose length equals the original-length field at the
head of the stream; and the reverse lookup of the table rebuilt from the
serialized frequencies yields a symbol below 256 at every slot, so the
decoder never indexes out of range. -/
theorem ansDecompress_total (data : List Nat) :
    (ans.Decompress data = none ∨
      ∃ out, ans.Decompress data = some out ∧ out.length = readU32LE data 0) ∧
    (∀ slot, (ans.BuildTable ((List.range 256).map
      (fun i => readU16LE data (4 + i * 2)))).cumToSym slot < 256) := by
  constructor
  · unfold ans.Decompress
    by_cases h1 : data.length < 4
    · rw [if_pos h1]
      exact Or.inl rfl
    · rw [if_neg h1]
      by_cases h2 : readU32LE data 0 = 0
      · rw [if_pos h2]
        exact Or.inr ⟨[], rfl, by rw [h2]; rfl⟩
      · rw [if_neg h2]
        by_cases h3 : data.length < 4 + 256 * 2 + 4
        · rw [if_pos h3]
          exact Or.inl rfl
        · rw [if_neg h3]
          by_cases h4 : (data.drop 516).length < 4
          · rw [if_pos h4]
            exact Or.inl rfl
          · rw [if_neg h4]
            refine Or.inr ⟨_, rfl, ?_⟩
            rw [ans.decLoop_length]
  · intro slot
    refine ans.BuildTable_lookup_lt _ ?_ slot
    rw [List.length_map, List.length_range]

end Unz

